import Mathlib

/-!
Verification of the NachOS MP4 file-system layer (filesys/directory.cc and the
embedded filehdr.cc of this repository): the free-sector bitmap collaborator,
the recursive multi-level file header (Allocate / Deallocate / ByteToSector)
and the fixed-capacity directory table (FindIndex / Add / Remove /
RecursiveRemove / RecursiveList / IsDir / FindisDir).

Machine integers of the C++ source are modelled as Lean Int; C integer
division truncates toward zero, so it is modelled with Int.tdiv / Int.tmod.
Recursion that walks on-disk structures (which in C++ terminates only because
the structures are finite) is modelled with an explicit fuel parameter; the
consistency predicates used in the theorems guarantee the fuel is never
exhausted.

The file is organized as: all definitions first, then all theorems.
-/

set_option maxHeartbeats 1600000

namespace NachosFS

/-- Sector size in bytes. disk.h is not part of the sources, but filehdr.cc
fixes it to 128 through the hard-coded level-size constants `30 * 128`. -/
def SectorSize : Int := 128

/-- Constant `OneLevelSize` from filehdr.cc: `#define OneLevelSize (30 * 128)`. -/
def OneLevelSize : Int := 30 * 128

/-- Constant `TwoLevelSize` from filehdr.cc: `#define TwoLevelSize (30 * 30 * 128)`. -/
def TwoLevelSize : Int := 30 * 30 * 128

/-- Constant `ThreeLevelSize` from filehdr.cc: `#define ThreeLevelSize (30 * 30 * 30 * 128)`. -/
def ThreeLevelSize : Int := 30 * 30 * 30 * 128

/-- Function `divRoundUp` from NachOS utility.h:
`(n / s) + (((n % s) > 0) ? 1 : 0)` with C (truncating) division. -/
def divRoundUp (n s : Int) : Int :=
  n.tdiv s + (if 0 < n.tmod s then 1 else 0)

/-- Function `divRoundDown` from NachOS utility.h: plain C division `n / s`. -/
def divRoundDown (n s : Int) : Int := n.tdiv s

/-! ## The free-sector bitmap collaborator

Modelled from the spec: the PersistentBitmap class itself is not in the
sources; the spec describes it as `FindAndSet() → sectorIndex | none`
(reserve the first free sector), `Clear(sectorIndex)`, `Test(sectorIndex)`
and `NumClear() → count`.  `bits` holds one Bool per sector (`true` = used);
`trace` is instrumentation recording every sector passed to `Clear`, in
call order, so that theorems can speak about the sequence of sectors cleared. -/

structure Bitmap where
  bits : List Bool
  trace : List Int
deriving DecidableEq

/-- First clear (false) position of a bit list, if any. -/
def findClear : List Bool → Option Nat
  | [] => none
  | b :: rest => if b then (findClear rest).map (· + 1) else some 0

/-- Modelled from the spec: `FindAndSet` reserves the first free sector and
returns its index, or returns -1 when no sector is free. -/
def Bitmap.findAndSet (bm : Bitmap) : Int × Bitmap :=
  match findClear bm.bits with
  | some i => ((i : Int), { bm with bits := bm.bits.set i true })
  | none => (-1, bm)

/-- Modelled from the spec: `Clear(which)` marks sector `which` free.  The
call is recorded in the trace; a negative index leaves the bits unchanged
(NachOS asserts it never happens, and the consistency hypotheses of the
theorems below rule it out). -/
def Bitmap.clear (bm : Bitmap) (which : Int) : Bitmap :=
  { bits := if 0 ≤ which then bm.bits.set which.toNat false else bm.bits,
    trace := bm.trace ++ [which] }

/-- Modelled from the spec: `Test(which)` reports whether sector `which` is used. -/
def Bitmap.testAt (bm : Bitmap) (which : Int) : Bool :=
  if 0 ≤ which then bm.bits.getD which.toNat false else false

/-- Modelled from the spec: `NumClear()` counts the free sectors. -/
def Bitmap.numClear (bm : Bitmap) : Int :=
  (bm.bits.count false : Int)

/-- Clearing a list of sectors in order. -/
def clearMany (bm : Bitmap) (l : List Int) : Bitmap := l.foldl Bitmap.clear bm

/-- A fresh all-free bitmap of `n` sectors with an empty trace. -/
def freeBits (n : Nat) : Bitmap := ⟨List.replicate n false, []⟩

/-! ## File header record and disk state -/

/-- In-memory file header (filehdr.h is not in the sources; the fields
`numBytes`, `numSectors`, `dataSectors` are those read and written by
filehdr.cc).  The fixed C array `dataSectors` (memset to -1 by the
constructor) is modelled as a list read with default -1. -/
structure FileHeaderRec where
  numBytes : Int
  numSectors : Int
  dataSectors : List Int
deriving DecidableEq

/-- The header produced by the `FileHeader::FileHeader` constructor:
`numBytes = -1`, `numSectors = -1`, `dataSectors` memset to -1. -/
def emptyHdr : FileHeaderRec := ⟨-1, -1, []⟩

/-- The C array read `dataSectors[i]` (out-of-range reads yield the
memset value -1). -/
def ptrAt (h : FileHeaderRec) (i : Nat) : Int := h.dataSectors.getD i (-1)

/-- Map from sector index to the file header stored there
(`FileHeader::FetchFrom` / `WriteBack` read and write whole headers). -/
def HdrMap := Int → FileHeaderRec

/-- All-default header map (every sector holds a constructor-fresh header). -/
def hdrMap0 : HdrMap := fun _ => emptyHdr

/-- Write a header to a sector (`FileHeader::WriteBack`). -/
def hdrWrite (dk : HdrMap) (s : Int) (h : FileHeaderRec) : HdrMap :=
  fun x => if x = s then h else dk x

/-! ## Directory entries and the directory table -/

/-- A directory entry (directory.h is not in the sources; the fields
`inUse`, `isDir`, `name`, `sector` are the ones directory.cc uses).
The fixed-size C char array `name` is modelled as a character list. -/
structure DirEntry where
  inUse : Bool
  isDir : Bool
  name : List Char
  sector : Int
deriving DecidableEq

/-- The bounded C comparison `!strncmp(a, b, ml)`: the two names agree on
their first `ml` characters (`FileNameMaxLen` is in the missing
directory.h, so the bound is kept as a parameter `ml`). -/
def nameMatch (ml : Nat) (a b : List Char) : Bool := a.take ml == b.take ml

/-- Scan of `Directory::FindIndex` starting at table position `i`. -/
def findIndexAux (ml : Nat) (name : List Char) : List DirEntry → Nat → Int
  | [], _ => -1
  | e :: rest, i =>
    if e.inUse && nameMatch ml e.name name then (i : Int)
    else findIndexAux ml name rest (i + 1)

/-- `Directory::FindIndex` (directory.cc:94): first in-use entry whose name
matches on the first `ml` characters, or -1. -/
def FindIndex (ml : Nat) (tbl : List DirEntry) (name : List Char) : Int :=
  findIndexAux ml name tbl 0

/-- The C array read `table[i]` with an `int` index: `none` models an
out-of-bounds access. -/
def tblGet? (tbl : List DirEntry) (i : Int) : Option DirEntry :=
  if 0 ≤ i then tbl[i.toNat]? else none

/-- `Directory::IsDir` (directory.cc:236): `return table[FindIndex(name)].isDir`
with no not-found check; a `none` result records that the table was read out
of bounds (index -1). -/
def IsDir (ml : Nat) (tbl : List DirEntry) (name : List Char) : Option Bool :=
  (tblGet? tbl (FindIndex ml tbl name)).map (·.isDir)

/-- `Directory::FindisDir` (directory.cc:120): returns `table[i].isDir`
(an int, 1 or 0) when the name is found, -1 otherwise. -/
def FindisDir (ml : Nat) (tbl : List DirEntry) (name : List Char) : Option Int :=
  let i := FindIndex ml tbl name
  if i ≠ -1 then (tblGet? tbl i).map (fun e => if e.isDir then 1 else 0)
  else some (-1)

/-- First free slot of the table (the scan inside `Directory::Add`). -/
def firstFree : List DirEntry → Option Nat
  | [] => none
  | e :: rest => if e.inUse then (firstFree rest).map (· + 1) else some 0

/-- `Directory::Add` (directory.cc:139): fail on duplicate name, else occupy
the first free slot (strncpy truncates the stored name to `ml` characters),
else fail because the table is full.  Returns (success, updated table). -/
def Add (ml : Nat) (tbl : List DirEntry) (name : List Char) (newSector : Int)
    (addDir : Bool) : Bool × List DirEntry :=
  if FindIndex ml tbl name ≠ -1 then (false, tbl)
  else
    match firstFree tbl with
    | some i => (true, tbl.set i ⟨true, addDir, name.take ml, newSector⟩)
    | none => (false, tbl)

/-- Clear the in-use flag of slot `j` (the single mutation of `Directory::Remove`). -/
def clearSlot (tbl : List DirEntry) (j : Nat) : List DirEntry :=
  match tbl[j]? with
  | some e => tbl.set j { e with inUse := false }
  | none => tbl

/-- `Directory::Remove` (directory.cc:164): clear the in-use flag of the
matching entry, fail if the name is not found. -/
def Remove (ml : Nat) (tbl : List DirEntry) (name : List Char) :
    Bool × List DirEntry :=
  let i := FindIndex ml tbl name
  if i = -1 then (false, tbl)
  else (true, clearSlot tbl i.toNat)

/-- The match condition of the FindIndex scan. -/
def entryMatches (ml : Nat) (name : List Char) (e : DirEntry) : Bool :=
  e.inUse && nameMatch ml e.name name

/-! ## Disk state and the recursive listing traversal -/

/-- Disk state as seen by the directory layer: the header stored at each
sector, and the directory table stored in the file rooted at each sector.
Modelled from the spec: the OpenFile read/write path (`OpenFile::ReadAt` /
`WriteAt`, not in the sources) serializes a directory table as the contents
of the file whose header lives at the given sector; it is abstracted here as
direct access to that table. -/
structure DiskState where
  hdrAt : Int → FileHeaderRec
  dirAt : Int → List DirEntry

/-- All-default disk: constructor-fresh headers, empty directory tables. -/
def disk0 : DiskState := ⟨hdrMap0, fun _ => []⟩

/-- Observable actions of `Directory::RecursiveList`: printing one entry's
line, and opening (recursing into) the subdirectory rooted at a sector. -/
inductive RLEvent where
  | print (depth : Int) (isDir : Bool) (name : List Char)
  | enter (sector : Int)
deriving DecidableEq

/-- `Directory::RecursiveList` (directory.cc:246).  Per table slot: print the
entry when it is in use; then — gated only on `table[i].isDir`, with no
re-check of `inUse` — open the subdirectory at `table[i].sector` and recurse
at depth `num + 1`.  An `enter` event records each such recursion. -/
def RecursiveList : Nat → DiskState → List DirEntry → Int → List RLEvent
  | fuel, dk, tbl, num =>
    tbl.flatMap fun e =>
      (if e.inUse then [RLEvent.print num e.isDir e.name] else []) ++
      (if e.isDir then
        RLEvent.enter e.sector ::
          (match fuel with
           | 0 => []
           | k + 1 => RecursiveList k dk (dk.dirAt e.sector) (num + 1))
      else [])

/-! ## FileHeader::Allocate

filehdr.cc:396.  The C++ function is one recursive procedure whose three
interior branches (`fileSize > ThreeLevelSize`, `> TwoLevelSize`,
`> OneLevelSize`) run the same while-loop with a different chunk constant.
It is modelled as a single function `allocGo`, structurally recursive on a
fuel counter, over a small call type: `.top` is an invocation of Allocate,
`.loop` is one while-loop state (chunk constant, the header's byte count,
the remaining bytes, and the pointer slots filled so far).  Every recursive
call and every loop iteration consumes one unit of fuel. -/

/-- Outcome of an Allocate call: `success` / `failure` mirror the C++
TRUE/FALSE returns and carry the resulting header, bitmap and header map;
`assertFail` records that `ASSERT(dataSectors[i] >= 0)` fired after
`FindAndSet` returned -1 (the C++ program aborts); `fuelOut` is the
model-only out-of-fuel marker. -/
inductive AllocOut where
  | success (h : FileHeaderRec) (bm : Bitmap) (dk : HdrMap)
  | failure (h : FileHeaderRec) (bm : Bitmap) (dk : HdrMap)
  | assertFail
  | fuelOut

def AllocOut.isSuccess : AllocOut → Bool
  | .success _ _ _ => true
  | _ => false

def AllocOut.isFailure : AllocOut → Bool
  | .failure _ _ _ => true
  | _ => false

def AllocOut.isAssertFail : AllocOut → Bool
  | .assertFail => true
  | _ => false

/-- NumClear of the resulting bitmap of a terminated call. -/
def AllocOut.numClearOf : AllocOut → Int
  | .success _ bm _ => bm.numClear
  | .failure _ bm _ => bm.numClear
  | _ => 0

/-- The leaf-mode for-loop of Allocate: `numSectors` successive FindAndSet
calls, aborting (`none`) when one returns -1, as `ASSERT(dataSectors[j] >= 0)`
does. -/
def takeSectors : Nat → Bitmap → Option (List Int × Bitmap)
  | 0, bm => some ([], bm)
  | k + 1, bm =>
    let fs := bm.findAndSet
    if 0 ≤ fs.1 then (takeSectors k fs.2).map fun p => (fs.1 :: p.1, p.2)
    else none

/-- A pending computation of the Allocate recursion: a call to Allocate
itself, or one iteration of an interior while-loop. -/
inductive AllocCall where
  | top (fileSize : Int)
  | loop (chunk numBytes0 remaining : Int) (acc : List Int)

def allocGo : Nat → HdrMap → Bitmap → AllocCall → AllocOut
  | fuel, dk, bm, .top fileSize =>
    let numSectors := divRoundUp fileSize SectorSize
    if bm.numClear < numSectors then .failure ⟨fileSize, numSectors, []⟩ bm dk
    else if ThreeLevelSize < fileSize then
      match fuel with
      | 0 => .fuelOut
      | k + 1 => allocGo k dk bm (.loop ThreeLevelSize fileSize fileSize [])
    else if TwoLevelSize < fileSize then
      match fuel with
      | 0 => .fuelOut
      | k + 1 => allocGo k dk bm (.loop TwoLevelSize fileSize fileSize [])
    else if OneLevelSize < fileSize then
      match fuel with
      | 0 => .fuelOut
      | k + 1 => allocGo k dk bm (.loop OneLevelSize fileSize fileSize [])
    else
      match takeSectors numSectors.toNat bm with
      | some p => .success ⟨fileSize, numSectors, p.1⟩ p.2 dk
      | none => .assertFail
  | fuel, dk, bm, .loop chunk numBytes0 remaining acc =>
    if 0 < remaining then
      match fuel with
      | 0 => .fuelOut
      | k + 1 =>
        let fs := bm.findAndSet
        if fs.1 < 0 then .assertFail
        else
          let childSize := if chunk < remaining then chunk else remaining
          match allocGo k dk fs.2 (.top childSize) with
          | .success ch bm2 dk2 =>
            allocGo k (hdrWrite dk2 fs.1 ch) bm2
              (.loop chunk numBytes0 (remaining - childSize) (acc ++ [fs.1]))
          | .failure _ bm2 dk2 =>
            .failure ⟨numBytes0, divRoundUp numBytes0 SectorSize, acc ++ [fs.1]⟩ bm2 dk2
          | .assertFail => .assertFail
          | .fuelOut => .fuelOut
    else .success ⟨numBytes0, (acc.length : Int), acc⟩ bm dk

/-- `FileHeader::Allocate(freeMap, fileSize)` (filehdr.cc:396). -/
def Allocate (fuel : Nat) (dk : HdrMap) (bm : Bitmap) (fileSize : Int) : AllocOut :=
  allocGo fuel dk bm (.top fileSize)

/-- Lower bound on the number of sectors a successful call draws from the
allocator: the per-call overdraw ledger used in the C5 theorem. -/
def drawnBound : AllocCall → Int
  | .top s => divRoundUp s SectorSize + (if OneLevelSize < s then 1 else 0)
  | .loop _ _ r _ => if 0 < r then divRoundUp r SectorSize + 1 else 0

/-- Side condition of the ledger: loop states carry a positive chunk
constant (Allocate only ever builds loops with One/Two/ThreeLevelSize). -/
def callOK : AllocCall → Prop
  | .top _ => True
  | .loop chunk _ _ _ => 0 < chunk

/-! ## FileHeader::Deallocate -/

/-- The pointer slots in use: `dataSectors[0 .. numSectors)`. -/
def ptrList (h : FileHeaderRec) : List Int :=
  (List.range h.numSectors.toNat).map (ptrAt h)

/-- `FileHeader::Deallocate(freeMap)` (filehdr.cc:518).  Interior mode
(`numBytes > OneLevelSize`): for each pointer slot, fetch the child header,
deallocate it recursively, then clear the child's own sector.  Leaf mode:
clear each data sector.  The fuel bounds only the fetch recursion of the
interior case. -/
def Deallocate : Nat → HdrMap → Bitmap → FileHeaderRec → Bitmap
  | fuel, hA, bm, h =>
    if OneLevelSize < h.numBytes then
      match fuel with
      | 0 => bm
      | k + 1 =>
        (ptrList h).foldl (fun b p => (Deallocate k hA b (hA p)).clear p) bm
    else
      (ptrList h).foldl (fun b p => b.clear p) bm

/-- Consistency of an allocated header tree (the shape `FileHeader::Allocate`
builds and `Deallocate`, `ByteToSector` expect), indexed by the fetch depth
it needs.  `secs` is the exact sequence of sectors the tree owns, in
Deallocate's clearing order: the used pointer slots at a leaf; for an
interior node, each child's sequence followed by that child's own header
sector. -/
inductive HdrTreeF (hA : HdrMap) : Nat → FileHeaderRec → List Int → Prop where
  | leaf : ∀ (fuel : Nat) (h : FileHeaderRec),
      h.numBytes ≤ OneLevelSize →
      HdrTreeF hA fuel h (ptrList h)
  | interior : ∀ (fuel : Nat) (h : FileHeaderRec) (css : List (List Int)),
      OneLevelSize < h.numBytes →
      css.length = h.numSectors.toNat →
      (∀ i (hi : i < css.length),
        HdrTreeF hA fuel (hA (ptrAt h i)) (css.get ⟨i, hi⟩)) →
      HdrTreeF hA (fuel + 1) h
        ((css.zipWith (fun cs p => cs ++ [p]) (ptrList h)).flatten)

/-- A one-header disk for the concrete witnesses: sector 5 holds a one-sector
leaf file of 128 bytes whose data lives in sector 3. -/
def hdrMapW : HdrMap := hdrWrite hdrMap0 5 ⟨128, 1, [3]⟩

/-- Disk state for the concrete witnesses: headers as in hdrMapW, all
directory files empty. -/
def diskW : DiskState := ⟨hdrMapW, fun _ => []⟩

/-- Bitmap for the concrete witnesses: 8 sectors, exactly 3 and 5 in use. -/
def bmW : Bitmap := ⟨[false, false, false, true, false, true, false, false], []⟩

/-! ## FileHeader::ByteToSector -/

/-- `FileHeader::ByteToSector(offset)` (filehdr.cc:587).  The three interior
branches compute `sector = divRoundDown(offset, chunk)` for the chunk one
level below (`ThreeLevelSize`, `TwoLevelSize`, `OneLevelSize`), fetch the
child header at `dataSectors[sector]` and recurse with
`offset - sector * chunk`; the leaf branch returns
`dataSectors[offset / SectorSize]`.  `none` is the model-only out-of-fuel
marker. -/
def ByteToSector : Nat → HdrMap → FileHeaderRec → Int → Option Int
  | fuel, hA, h, offset =>
    if ThreeLevelSize < h.numBytes then
      match fuel with
      | 0 => none
      | k + 1 =>
        let sector := divRoundDown offset ThreeLevelSize
        ByteToSector k hA (hA (ptrAt h sector.toNat)) (offset - sector * ThreeLevelSize)
    else if TwoLevelSize < h.numBytes then
      match fuel with
      | 0 => none
      | k + 1 =>
        let sector := divRoundDown offset TwoLevelSize
        ByteToSector k hA (hA (ptrAt h sector.toNat)) (offset - sector * TwoLevelSize)
    else if OneLevelSize < h.numBytes then
      match fuel with
      | 0 => none
      | k + 1 =>
        let sector := divRoundDown offset OneLevelSize
        ByteToSector k hA (hA (ptrAt h sector.toNat)) (offset - sector * OneLevelSize)
    else
      some (ptrAt h (offset.tdiv SectorSize).toNat)

/-- Chunk size one level below an interior header of `n` bytes — the same
threshold comparison all three of Allocate, Deallocate and ByteToSector use. -/
def chunkOf (n : Int) : Int :=
  if ThreeLevelSize < n then ThreeLevelSize
  else if TwoLevelSize < n then TwoLevelSize
  else OneLevelSize

/-- Byte-level consistency of an allocated tree: `ds` lists, in order, the
data sectors of the file, each covering the next `SectorSize` bytes.  A leaf
covers `0 ≤ numBytes ≤ OneLevelSize` with `ceil(numBytes/S)` pointer slots;
an interior node of `n` bytes has `numSectors` children over chunk
`c = chunkOf n`, every child but the last covering exactly `c` bytes and the
last covering the positive remainder `n - c·(numSectors - 1)` — the shape
`FileHeader::Allocate` produces. -/
inductive Covers (hA : HdrMap) : Nat → FileHeaderRec → List Int → Prop where
  | leaf : ∀ (fuel : Nat) (h : FileHeaderRec),
      0 ≤ h.numBytes → h.numBytes ≤ OneLevelSize →
      h.numSectors = divRoundUp h.numBytes SectorSize →
      Covers hA fuel h (ptrList h)
  | interior : ∀ (fuel : Nat) (h : FileHeaderRec) (dss : List (List Int)),
      OneLevelSize < h.numBytes →
      dss.length = h.numSectors.toNat →
      0 < h.numSectors →
      chunkOf h.numBytes * (h.numSectors - 1) < h.numBytes →
      h.numBytes ≤ chunkOf h.numBytes * h.numSectors →
      (∀ i (hi : i < dss.length),
        Covers hA fuel (hA (ptrAt h i)) (dss.get ⟨i, hi⟩)) →
      (∀ i (hi : i < dss.length),
        (hA (ptrAt h i)).numBytes =
          if i + 1 < dss.length then chunkOf h.numBytes
          else h.numBytes - chunkOf h.numBytes * (h.numSectors - 1)) →
      Covers hA (fuel + 1) h dss.flatten

/-! ## Directory::RecursiveRemove -/

/-- Clearing the in-use flag, keeping name, sector and isDir — the single
mutation `Directory::Remove` performs on the found entry. -/
def markFree (e : DirEntry) : DirEntry := { e with inUse := false }

/-- Write back the serialized table of the directory file rooted at sector
`s` (`Directory::WriteBack` through the OpenFile at that sector; modelled
from the spec like the rest of DiskState). -/
def writeDir (dk : DiskState) (s : Int) (t : List DirEntry) : DiskState :=
  { dk with dirAt := fun x => if x = s then t else dk.dirAt x }

/-- `Directory::RecursiveRemove(freeMap)` (directory.cc:182), iterating from
slot `i`.  For an in-use plain-file entry: fetch its header, `Deallocate` it,
clear the header's own sector, `Remove` the name.  For an in-use directory
entry: load the nested table, recursively remove it, write the emptied table
back, then fetch / `Deallocate` / clear the subdirectory's header sector and
`Remove` the name.  The fuel bounds the directory-nesting recursion and is
handed to `Deallocate` for its own header-tree recursion. -/
def RecursiveRemoveAux (ml : Nat) :
    Nat → DiskState → Bitmap → List DirEntry → Nat →
      List DirEntry × Bitmap × DiskState
  | fuel, dk, bm, tbl, i =>
    if hi : i < tbl.length then
      if (tbl.get ⟨i, hi⟩).inUse && !(tbl.get ⟨i, hi⟩).isDir then
        RecursiveRemoveAux ml fuel dk
          ((Deallocate fuel dk.hdrAt bm (dk.hdrAt (tbl.get ⟨i, hi⟩).sector)).clear
            (tbl.get ⟨i, hi⟩).sector)
          (Remove ml tbl (tbl.get ⟨i, hi⟩).name).2 (i + 1)
      else if (tbl.get ⟨i, hi⟩).inUse && (tbl.get ⟨i, hi⟩).isDir then
        match fuel with
        | 0 => (tbl, bm, dk)
        | k + 1 =>
          let r := RecursiveRemoveAux ml k dk bm (dk.dirAt (tbl.get ⟨i, hi⟩).sector) 0
          let dk1 := writeDir r.2.2 (tbl.get ⟨i, hi⟩).sector r.1
          RecursiveRemoveAux ml (k + 1) dk1
            ((Deallocate (k + 1) dk1.hdrAt r.2.1
              (dk1.hdrAt (tbl.get ⟨i, hi⟩).sector)).clear (tbl.get ⟨i, hi⟩).sector)
            (Remove ml tbl (tbl.get ⟨i, hi⟩).name).2 (i + 1)
      else RecursiveRemoveAux ml fuel dk bm tbl (i + 1)
    else (tbl, bm, dk)
  termination_by fuel _ _ tbl i => (fuel, tbl.length - i)
  decreasing_by
  · apply Prod.Lex.right
    have hlen : (Remove ml tbl (tbl.get ⟨i, hi⟩).name).2.length = tbl.length := by
      unfold Remove clearSlot
      dsimp only
      split
      · rfl
      · split
        · simp
        · rfl
    rw [hlen]
    omega
  · apply Prod.Lex.left
    omega
  · apply Prod.Lex.right
    have hlen : (Remove ml tbl (tbl.get ⟨i, hi⟩).name).2.length = tbl.length := by
      unfold Remove clearSlot
      dsimp only
      split
      · rfl
      · split
        · simp
        · rfl
    rw [hlen]
    omega
  · apply Prod.Lex.right
    omega

/-- `Directory::RecursiveRemove` starting at slot 0. -/
def RecursiveRemove (ml fuel : Nat) (dk : DiskState) (bm : Bitmap)
    (tbl : List DirEntry) : List DirEntry × Bitmap × DiskState :=
  RecursiveRemoveAux ml fuel dk bm tbl 0

/-- Consistency of a directory tree rooted in a table, with the disjointness
and allocation facts RecursiveRemove relies on, indexed by the nesting depth
fuel it needs.  `secs` is the exact sequence of sectors the removal owns, in
clearing order: per in-use file entry, its header tree's sectors then the
header's own sector; per in-use subdirectory entry, the nested table's
sectors, then the subdirectory backing file's header-tree sectors, then the
subdirectory's header sector. -/
inductive TableTree : Nat → DiskState → List DirEntry → List Int → Prop where
  | nil : ∀ (fuel : Nat) (dk : DiskState), TableTree fuel dk [] []
  | skip : ∀ (fuel : Nat) (dk : DiskState) (e : DirEntry) (rest : List DirEntry)
      (secs : List Int),
      e.inUse = false →
      TableTree fuel dk rest secs →
      TableTree fuel dk (e :: rest) secs
  | file : ∀ (fuel : Nat) (dk : DiskState) (e : DirEntry) (rest : List DirEntry)
      (hsecs rsecs : List Int),
      e.inUse = true → e.isDir = false →
      HdrTreeF dk.hdrAt fuel (dk.hdrAt e.sector) hsecs →
      TableTree fuel dk rest rsecs →
      TableTree fuel dk (e :: rest) (hsecs ++ e.sector :: rsecs)
  | dir : ∀ (fuel : Nat) (dk : DiskState) (e : DirEntry) (rest : List DirEntry)
      (nsecs hsecs rsecs : List Int),
      e.inUse = true → e.isDir = true →
      TableTree fuel dk (dk.dirAt e.sector) nsecs →
      HdrTreeF dk.hdrAt (fuel + 1) (dk.hdrAt e.sector) hsecs →
      TableTree (fuel + 1) dk rest rsecs →
      TableTree (fuel + 1) dk (e :: rest) (nsecs ++ hsecs ++ e.sector :: rsecs)

/-! # Theorems -/

theorem divRoundUp_nonneg_eq (n : Int) (h : 0 ≤ n) :
    divRoundUp n SectorSize = (n + (SectorSize - 1)) / SectorSize := by
  unfold divRoundUp SectorSize
  rw [Int.tdiv_eq_ediv h (by norm_num), Int.tmod_eq_emod h (by norm_num)]
  omega

theorem divRoundUp_nonneg (n : Int) (h : 0 ≤ n) : 0 ≤ divRoundUp n SectorSize := by
  rw [divRoundUp_nonneg_eq n h]; unfold SectorSize; omega

/-- Ceiling division by the sector size is subadditive; this is what makes the
conservative `NumClear() < numSectors` check in Allocate an underestimate of
the true requirement of a multi-level file. -/
theorem divRoundUp_add_le (a b : Int) (ha : 0 ≤ a) (hb : 0 ≤ b) :
    divRoundUp (a + b) SectorSize ≤ divRoundUp a SectorSize + divRoundUp b SectorSize := by
  rw [divRoundUp_nonneg_eq a ha, divRoundUp_nonneg_eq b hb,
    divRoundUp_nonneg_eq (a + b) (by omega)]
  unfold SectorSize
  omega

theorem findClear_some_lt {l : List Bool} {i : Nat} (h : findClear l = some i) :
    i < l.length := by
  induction l generalizing i with
  | nil => simp [findClear] at h
  | cons b rest ih =>
    by_cases hb : b
    · simp [findClear, hb] at h
      obtain ⟨j, hj, rfl⟩ := h
      simpa using ih hj
    · simp [findClear, hb] at h
      simp only [List.length_cons]
      omega

theorem findClear_some_get {l : List Bool} {i : Nat} (h : findClear l = some i) :
    l[i]?.getD true = false := by
  induction l generalizing i with
  | nil => simp [findClear] at h
  | cons b rest ih =>
    by_cases hb : b
    · simp [findClear, hb] at h
      obtain ⟨j, hj, rfl⟩ := h
      simpa using ih hj
    · simp [findClear, hb] at h
      subst h
      simpa using hb

theorem findClear_none_count {l : List Bool} (h : findClear l = none) :
    l.count false = 0 := by
  induction l with
  | nil => simp
  | cons b rest ih =>
    by_cases hb : b
    · simp [findClear, hb, Option.map_eq_none'] at h
      simp [List.count_cons, ih h, hb]
    · simp [findClear, hb] at h

theorem count_false_set_true {l : List Bool} {i : Nat}
    (hi : i < l.length) (hv : l[i]?.getD true = false) :
    (l.set i true).count false + 1 = l.count false := by
  induction l generalizing i with
  | nil => simp at hi
  | cons b rest ih =>
    cases i with
    | zero =>
      simp at hv
      simp [List.count_cons, hv]
    | succ j =>
      simp at hi hv
      simp [List.count_cons, List.set]
      have := ih hi hv
      cases h : (b == false) <;> omega

theorem count_false_set_false {l : List Bool} {i : Nat}
    (hi : i < l.length) (hv : l[i]?.getD false = true) :
    (l.set i false).count false = l.count false + 1 := by
  induction l generalizing i with
  | nil => simp at hi
  | cons b rest ih =>
    cases i with
    | zero =>
      simp at hv
      simp [List.count_cons, hv]
    | succ j =>
      simp at hi hv
      simp [List.count_cons, List.set]
      have := ih hi hv
      cases h : (b == false) <;> omega

theorem findClear_some_countpos {l : List Bool} {i : Nat} (h : findClear l = some i) :
    0 < l.count false := by
  have hlt := findClear_some_lt h
  have hget := findClear_some_get h
  rw [List.getElem?_eq_getElem hlt] at hget
  simp at hget
  exact List.count_pos_iff.mpr (hget ▸ List.getElem_mem hlt)

theorem findAndSet_neg_iff (bm : Bitmap) :
    (bm.findAndSet).1 < 0 ↔ bm.numClear = 0 := by
  unfold Bitmap.findAndSet Bitmap.numClear
  cases h : findClear bm.bits with
  | none => simp [findClear_none_count h]
  | some i =>
    have := findClear_some_countpos h
    simp
    omega

theorem findAndSet_nonneg_numClear (bm : Bitmap) (h : 0 ≤ (bm.findAndSet).1) :
    (bm.findAndSet).2.numClear = bm.numClear - 1 ∧ (bm.findAndSet).2.bits.length = bm.bits.length ∧
      (bm.findAndSet).2.trace = bm.trace := by
  unfold Bitmap.findAndSet at *
  cases hf : findClear bm.bits with
  | none => rw [hf] at h; simp at h
  | some i =>
    have h1 := findClear_some_lt hf
    have h2 := findClear_some_get hf
    have := count_false_set_true h1 h2
    unfold Bitmap.numClear
    simp [hf]
    omega

theorem clear_trace (bm : Bitmap) (s : Int) : (bm.clear s).trace = bm.trace ++ [s] := rfl

theorem clear_bits_length (bm : Bitmap) (s : Int) : (bm.clear s).bits.length = bm.bits.length := by
  unfold Bitmap.clear
  by_cases h : 0 ≤ s <;> simp [h]

theorem clear_testAt_ne (bm : Bitmap) (s t : Int) (h : t ≠ s) :
    (bm.clear s).testAt t = bm.testAt t := by
  unfold Bitmap.clear Bitmap.testAt
  by_cases hs : 0 ≤ s <;> by_cases ht : 0 ≤ t <;> simp [hs, ht]
  rw [List.getElem?_set_ne (by omega)]

theorem clear_numClear_of_set (bm : Bitmap) (s : Int) (h0 : 0 ≤ s)
    (hlen : s.toNat < bm.bits.length) (hset : bm.testAt s = true) :
    (bm.clear s).numClear = bm.numClear + 1 := by
  unfold Bitmap.clear Bitmap.numClear
  unfold Bitmap.testAt at hset
  simp [h0] at hset ⊢
  rw [count_false_set_false hlen hset]
  omega

theorem findIndexAux_eq_neg_one_iff (ml : Nat) (name : List Char)
    (tbl : List DirEntry) (i : Nat) :
    findIndexAux ml name tbl i = -1 ↔
      ∀ e ∈ tbl, entryMatches ml name e = false := by
  induction tbl generalizing i with
  | nil => simp [findIndexAux]
  | cons e rest ih =>
    by_cases he : (e.inUse && nameMatch ml e.name name) = true
    · simp only [findIndexAux, he, if_true]
      constructor
      · intro h; exfalso; omega
      · intro h
        exact absurd (h e (List.mem_cons_self e rest)) (by simp [entryMatches, he])
    · simp only [findIndexAux]
      rw [if_neg he, ih]
      constructor
      · intro h e' he'
        rcases List.mem_cons.mp he' with rfl | hmem
        · simpa [entryMatches] using he
        · exact h e' hmem
      · intro h e' he'
        exact h e' (List.mem_cons_of_mem _ he')

theorem findIndexAux_ne_spec {ml : Nat} {name : List Char}
    {tbl : List DirEntry} {i : Nat} (h : findIndexAux ml name tbl i ≠ -1) :
    ∃ j : Nat, findIndexAux ml name tbl i = ((i + j : Nat) : Int) ∧
      ∃ hj : j < tbl.length, entryMatches ml name (tbl.get ⟨j, hj⟩) = true := by
  induction tbl generalizing i with
  | nil => simp [findIndexAux] at h
  | cons e rest ih =>
    by_cases he : (e.inUse && nameMatch ml e.name name) = true
    · refine ⟨0, ?_, ?_⟩
      · simp [findIndexAux, he]
      · exact ⟨by simp, by simpa [entryMatches] using he⟩
    · simp only [findIndexAux] at h ⊢
      rw [if_neg he] at h ⊢
      obtain ⟨j, hj1, hj2, hj3⟩ := ih h
      refine ⟨j + 1, by rw [hj1]; push_cast; ring, ?_⟩
      refine ⟨by simpa using Nat.succ_lt_succ hj2, ?_⟩
      simpa using hj3

theorem findIndexAux_first (ml : Nat) (name : List Char) :
    ∀ (tbl : List DirEntry) (k i : Nat) (hi : i < tbl.length),
      entryMatches ml name (tbl.get ⟨i, hi⟩) = true →
      (∀ j (hj : j < tbl.length), j < i →
        entryMatches ml name (tbl.get ⟨j, hj⟩) = false) →
      findIndexAux ml name tbl k = ((k + i : Nat) : Int) := by
  intro tbl
  induction tbl with
  | nil => intro k i hi; simp at hi
  | cons e rest ih =>
    intro k i hi hmatch hno
    cases i with
    | zero =>
      simp only [List.get] at hmatch
      unfold entryMatches at hmatch
      simp only [findIndexAux, Bool.and_eq_true] at *
      simp [hmatch]
    | succ m =>
      have h0 : entryMatches ml name e = false := by
        have := hno 0 (by simp) (Nat.succ_pos m)
        simpa using this
      unfold entryMatches at h0
      simp only [findIndexAux]
      rw [if_neg (by simp [h0])]
      have := ih (k + 1) m (by simpa using Nat.lt_of_succ_lt_succ hi)
        (by simpa using hmatch)
        (by
          intro j hj hjm
          have := hno (j + 1) (by simpa using Nat.succ_lt_succ hj)
            (Nat.succ_lt_succ hjm)
          simpa using this)
      rw [this]
      push_cast
      ring

theorem firstFree_some_spec : ∀ {tbl : List DirEntry} {i : Nat},
    firstFree tbl = some i →
    ∃ hi : i < tbl.length, (tbl.get ⟨i, hi⟩).inUse = false ∧
      ∀ j (hj : j < tbl.length), j < i → (tbl.get ⟨j, hj⟩).inUse = true := by
  intro tbl
  induction tbl with
  | nil => intro i h; simp [firstFree] at h
  | cons e rest ih =>
    intro i h
    by_cases he : e.inUse
    · simp only [firstFree] at h
      rw [if_pos he] at h
      rw [Option.map_eq_some'] at h
      obtain ⟨m, hm, rfl⟩ := h
      obtain ⟨hmlt, hfree, hprev⟩ := ih hm
      refine ⟨by simpa using Nat.succ_lt_succ hmlt, by simpa using hfree, ?_⟩
      intro j hj hjm
      cases j with
      | zero => simpa using he
      | succ j' =>
        have := hprev j' (by simpa using Nat.lt_of_succ_lt_succ hj)
          (Nat.lt_of_succ_lt_succ hjm)
        simpa using this
    · simp only [firstFree] at h
      rw [if_neg he] at h
      rw [Option.some.injEq] at h
      subst h
      refine ⟨by simp, by simpa using he, ?_⟩
      intro j hj hjm
      omega

theorem firstFree_none_spec {tbl : List DirEntry} (h : firstFree tbl = none) :
    ∀ e ∈ tbl, e.inUse = true := by
  induction tbl with
  | nil => simp
  | cons e rest ih =>
    by_cases he : e.inUse
    · simp only [firstFree] at h
      rw [if_pos he, Option.map_eq_none'] at h
      intro e' he'
      rcases List.mem_cons.mp he' with rfl | hmem
      · exact he
      · exact ih h e' hmem
    · simp only [firstFree] at h
      rw [if_neg he] at h
      exact absurd h (by simp)

/-- C7: `Directory::Add` fails on a duplicate name, fails when every slot is
in use, and otherwise writes the binding into the first (lowest-index) free
slot, marking it in-use and leaving every other slot unchanged. -/
theorem C7_add_spec (ml : Nat) (tbl : List DirEntry) (name : List Char)
    (s : Int) (d : Bool) :
    (FindIndex ml tbl name ≠ -1 → Add ml tbl name s d = (false, tbl)) ∧
    (firstFree tbl = none → Add ml tbl name s d = (false, tbl)) ∧
    (∀ i : Nat, FindIndex ml tbl name = -1 → firstFree tbl = some i →
      Add ml tbl name s d = (true, tbl.set i ⟨true, d, name.take ml, s⟩) ∧
      (∃ hi : i < tbl.length, (tbl.get ⟨i, hi⟩).inUse = false) ∧
      (∀ j (hj : j < tbl.length), j < i → (tbl.get ⟨j, hj⟩).inUse = true) ∧
      (∀ j : Nat, j ≠ i →
        (tbl.set i ⟨true, d, name.take ml, s⟩)[j]? = tbl[j]?)) := by
  refine ⟨?_, ?_, ?_⟩
  · intro h
    simp [Add, h]
  · intro h
    by_cases hf : FindIndex ml tbl name ≠ -1
    · simp [Add, hf]
    · simp only [Add, if_neg hf, h]
  · intro i hfind hfree
    obtain ⟨hi, hfreeslot, hprev⟩ := firstFree_some_spec hfree
    refine ⟨by simp [Add, hfind, hfree], ⟨hi, hfreeslot⟩, hprev, ?_⟩
    intro j hj
    exact List.getElem?_set_ne (fun h => hj h.symm)

/-- C8: two names that agree on their first `ml` characters are aliased by
the bounded strncmp comparison: FindIndex treats them identically, adding the
second after the first fails as a duplicate, and Remove of either clears the
same entry. -/
theorem C8_name_alias (ml : Nat) (a b : List Char) (hab : a.take ml = b.take ml) :
    (∀ tbl : List DirEntry, FindIndex ml tbl a = FindIndex ml tbl b) ∧
    (∀ (tbl : List DirEntry) (s s2 : Int) (d d2 : Bool),
      (Add ml tbl a s d).1 = true →
      FindIndex ml (Add ml tbl a s d).2 b ≠ -1 ∧
      Add ml (Add ml tbl a s d).2 b s2 d2 = (false, (Add ml tbl a s d).2)) ∧
    (∀ tbl : List DirEntry, Remove ml tbl a = Remove ml tbl b) := by
  have hmatch : ∀ (nm : List Char), nameMatch ml nm a = nameMatch ml nm b := by
    intro nm
    unfold nameMatch
    rw [hab]
  have hfind : ∀ (tbl : List DirEntry) (k : Nat),
      findIndexAux ml a tbl k = findIndexAux ml b tbl k := by
    intro tbl
    induction tbl with
    | nil => intro k; rfl
    | cons e rest ih =>
      intro k
      simp only [findIndexAux, hmatch e.name, ih]
  refine ⟨fun tbl => hfind tbl 0, ?_, ?_⟩
  · intro tbl s s2 d d2 hsucc
    have hdup : FindIndex ml tbl a = -1 := by
      by_contra h
      simp [Add, h] at hsucc
    obtain ⟨i, hfree⟩ : ∃ i, firstFree tbl = some i := by
      cases h : firstFree tbl with
      | none => simp [Add, hdup, h] at hsucc
      | some i => exact ⟨i, rfl⟩
    have hadd : (Add ml tbl a s d).2 = tbl.set i ⟨true, d, a.take ml, s⟩ := by
      simp [Add, hdup, hfree]
    obtain ⟨hi, -, -⟩ := firstFree_some_spec hfree
    have hne : FindIndex ml (Add ml tbl a s d).2 b ≠ -1 := by
      rw [hadd]
      unfold FindIndex
      simp only [ne_eq, findIndexAux_eq_neg_one_iff]
      push_neg
      refine ⟨⟨true, d, a.take ml, s⟩, List.mem_set tbl i hi _, ?_⟩
      simp [entryMatches, nameMatch, List.take_take, hab]
    have hAddDup : ∀ (t : List DirEntry), FindIndex ml t b ≠ -1 →
        Add ml t b s2 d2 = (false, t) := by
      intro t h
      simp [Add, h]
    exact ⟨hne, hAddDup _ hne⟩
  · intro tbl
    unfold Remove FindIndex
    rw [hfind tbl 0]

/-- C8 witness: with ml = 2 the concrete names "abc" and "abd" agree on their
first two characters and alias to the same entry. -/
theorem C8_name_alias_witness :
    (['a', 'b', 'c'].take 2 = ['a', 'b', 'd'].take 2) ∧
    FindIndex 2 [⟨true, false, ['a', 'b', 'c'], 4⟩] ['a', 'b', 'c'] =
      FindIndex 2 [⟨true, false, ['a', 'b', 'c'], 4⟩] ['a', 'b', 'd'] :=
  ⟨by decide, (C8_name_alias 2 ['a', 'b', 'c'] ['a', 'b', 'd'] (by decide)).1
    [⟨true, false, ['a', 'b', 'c'], 4⟩]⟩

/-- C7 witness: adding to a one-slot empty table succeeds into slot 0. -/
theorem C7_add_spec_witness :
    Add 9 [⟨false, false, [], -1⟩] ['a'] 3 false =
      (true, [⟨true, false, ['a'], 3⟩]) := by
  have h := (C7_add_spec 9 [⟨false, false, [], -1⟩] ['a'] 3 false).2.2 0
    (by decide) (by decide)
  simpa using h.1

/-- C4 counterexample: on the empty table every name is unbound; `IsDir` then
indexes `table[-1]` — an out-of-bounds read (modelled `none`) instead of a
distinguishable not-found result. -/
theorem C4_isDir_oob :
    FindIndex 9 [] ['a'] = -1 ∧ IsDir 9 [] ['a'] = none := by decide

/-- C4 amended: `FindisDir` is the safe lookup — it returns -1 exactly when
the name is unbound, with no table read, and the entry's flag when bound;
`IsDir` returns the flag only for bound names. -/
theorem C4_findisDir_safe (ml : Nat) (tbl : List DirEntry) (name : List Char) :
    (FindIndex ml tbl name = -1 → FindisDir ml tbl name = some (-1)) ∧
    (FindIndex ml tbl name ≠ -1 →
      ∃ e : DirEntry, tblGet? tbl (FindIndex ml tbl name) = some e ∧
        FindisDir ml tbl name = some (if e.isDir then 1 else 0) ∧
        IsDir ml tbl name = some e.isDir) := by
  refine ⟨?_, ?_⟩
  · intro h
    simp [FindisDir, h]
  · intro h
    obtain ⟨j, hj1, hj2, -⟩ := @findIndexAux_ne_spec ml name tbl 0 h
    have hfj : FindIndex ml tbl name = (j : Int) := by
      unfold FindIndex; rw [hj1]; push_cast; ring
    have hget : tblGet? tbl (FindIndex ml tbl name) = some (tbl.get ⟨j, hj2⟩) := by
      rw [hfj]
      unfold tblGet?
      rw [if_pos (by positivity)]
      simp [List.getElem?_eq_getElem hj2]
    exact ⟨tbl.get ⟨j, hj2⟩, hget, by simp [FindisDir, h, hget], by simp [IsDir, hget]⟩

/-- C4 witness: the safe branch of FindisDir at a concrete unbound name. -/
theorem C4_findisDir_safe_witness :
    FindIndex 9 [] ['a'] = -1 ∧ FindisDir 9 [] ['a'] = some (-1) :=
  ⟨by decide, (C4_findisDir_safe 9 [] ['a']).1 (by decide)⟩

/-- C3 (code bug): the recursion of RecursiveList is gated on `isDir` alone.
A table whose only slot has `inUse = false` and `isDir = true` is still
recursed into: the traversal prints nothing yet emits the enter event for
sector 7. -/
theorem C3_recursiveList_enters_free_slot :
    RecursiveList 1 disk0 [⟨false, true, [], 7⟩] 0 = [RLEvent.enter 7] := by
  decide

/-- C10: Allocate computes `numSectors = divRoundUp(fileSize, SectorSize)` —
the ceiling of size / S — and returns FALSE immediately, with the allocator
untouched (same bitmap, no sector reserved, no trace entry), whenever
`NumClear() < numSectors`. -/
theorem C10_check_first (fuel : Nat) (dk : HdrMap) (bm : Bitmap) (size : Int)
    (h0 : 0 ≤ size) (hlt : bm.numClear < divRoundUp size SectorSize) :
    Allocate fuel dk bm size =
      .failure ⟨size, divRoundUp size SectorSize, []⟩ bm dk ∧
    divRoundUp size SectorSize = (size + (SectorSize - 1)) / SectorSize := by
  constructor
  · unfold Allocate
    rw [allocGo.eq_def]
    simp only
    rw [if_pos hlt]
  · exact divRoundUp_nonneg_eq size h0

/-- C10 witness: one free sector cannot hold a 256-byte file (2 sectors
needed); the call fails with the bitmap returned unchanged. -/
theorem C10_check_first_witness :
    0 ≤ (256 : Int) ∧ (freeBits 1).numClear < divRoundUp 256 SectorSize ∧
    Allocate 5 hdrMap0 (freeBits 1) 256 =
      .failure ⟨256, divRoundUp 256 SectorSize, []⟩ (freeBits 1) hdrMap0 :=
  ⟨by decide, by decide,
    (C10_check_first 5 hdrMap0 (freeBits 1) 256 (by decide) (by decide)).1⟩

/-- C1 (code bug): Allocate is not atomic.  With exactly 60 free sectors,
`Allocate(7680)` passes the up-front check (`ceil(7680/128) = 60`), reserves
a child-header sector plus 30 leaf sectors plus a second child-header sector,
then the second child's own up-front check fails (28 < 30); the call returns
FALSE leaving all 32 reserved sectors allocated: NumClear drops from 60 to 28
instead of being restored. -/
theorem C1_allocate_failure_leaks :
    (freeBits 60).numClear = 60 ∧
    divRoundUp 7680 SectorSize = 60 ∧
    (Allocate 100 hdrMap0 (freeBits 60) 7680).isFailure = true ∧
    (Allocate 100 hdrMap0 (freeBits 60) 7680).numClearOf = 28 := by
  decide

theorem takeSectors_some_numClear :
    ∀ (n : Nat) (bm : Bitmap) (p : List Int × Bitmap),
      takeSectors n bm = some p →
      p.2.numClear = bm.numClear - n ∧ p.2.bits.length = bm.bits.length ∧
        p.2.trace = bm.trace ∧ p.1.length = n := by
  intro n
  induction n with
  | zero =>
    intro bm p h
    simp only [takeSectors, Option.some.injEq] at h
    subst h
    simp
  | succ k ih =>
    intro bm p h
    simp only [takeSectors] at h
    by_cases h0 : 0 ≤ (bm.findAndSet).1
    · rw [if_pos h0, Option.map_eq_some'] at h
      obtain ⟨q, hq, rfl⟩ := h
      obtain ⟨e1, e2, e3⟩ := findAndSet_nonneg_numClear bm h0
      obtain ⟨f1, f2, f3, f4⟩ := ih _ _ hq
      refine ⟨?_, ?_, ?_, ?_⟩ <;> simp [f1, f4, e1, f2, e2, f3, e3]
      omega
    · rw [if_neg h0] at h
      cases h

theorem allocGo_success_numClear :
    ∀ (fuel : Nat) (dk : HdrMap) (bm : Bitmap) (c : AllocCall)
      (hr : FileHeaderRec) (bm' : Bitmap) (dk' : HdrMap),
      callOK c → allocGo fuel dk bm c = .success hr bm' dk' →
      bm'.numClear ≤ bm.numClear - drawnBound c := by
  have leafCase : ∀ (dk : HdrMap) (bm : Bitmap) (s : Int)
      (hr : FileHeaderRec) (bm' : Bitmap) (dk' : HdrMap),
      ¬ OneLevelSize < s →
      (match takeSectors (divRoundUp s SectorSize).toNat bm with
        | some p => AllocOut.success ⟨s, divRoundUp s SectorSize, p.1⟩ p.2 dk
        | none => AllocOut.assertFail) = .success hr bm' dk' →
      bm'.numClear ≤ bm.numClear - drawnBound (.top s) := by
    intro dk bm s hr bm' dk' hle heq
    cases htake : takeSectors (divRoundUp s SectorSize).toNat bm with
    | none => rw [htake] at heq; cases heq
    | some p =>
      rw [htake] at heq
      obtain ⟨-, h2, -⟩ := AllocOut.success.inj heq
      obtain ⟨t1, -, -, -⟩ := takeSectors_some_numClear _ _ _ htake
      subst h2
      simp only [drawnBound, if_neg hle]
      omega
  intro fuel
  induction fuel with
  | zero =>
    intro dk bm c hr bm' dk' hok heq
    cases c with
    | top s =>
      rw [allocGo.eq_def] at heq
      simp only at heq
      by_cases h1 : bm.numClear < divRoundUp s SectorSize
      · rw [if_pos h1] at heq; cases heq
      · rw [if_neg h1] at heq
        by_cases h3 : ThreeLevelSize < s
        · rw [if_pos h3] at heq; cases heq
        · rw [if_neg h3] at heq
          by_cases h2 : TwoLevelSize < s
          · rw [if_pos h2] at heq; cases heq
          · rw [if_neg h2] at heq
            by_cases hone : OneLevelSize < s
            · rw [if_pos hone] at heq; cases heq
            · rw [if_neg hone] at heq
              exact leafCase dk bm s hr bm' dk' hone heq
    | loop chunk nb0 r acc =>
      rw [allocGo.eq_def] at heq
      simp only at heq
      by_cases hrpos : 0 < r
      · rw [if_pos hrpos] at heq; cases heq
      · rw [if_neg hrpos] at heq
        obtain ⟨-, h2, -⟩ := AllocOut.success.inj heq
        subst h2
        simp only [drawnBound, if_neg hrpos]
        omega
  | succ k ih =>
    intro dk bm c hr bm' dk' hok heq
    cases c with
    | top s =>
      rw [allocGo.eq_def] at heq
      simp only at heq
      by_cases h1 : bm.numClear < divRoundUp s SectorSize
      · rw [if_pos h1] at heq; exact absurd heq (by simp)
      · rw [if_neg h1] at heq
        have hlv : (0 : Int) < OneLevelSize ∧ OneLevelSize < TwoLevelSize ∧
            TwoLevelSize < ThreeLevelSize := by
          refine ⟨?_, ?_, ?_⟩ <;> norm_num [OneLevelSize, TwoLevelSize, ThreeLevelSize]
        have interior : ∀ L : Int, 0 < L → OneLevelSize < s →
            allocGo k dk bm (.loop L s s []) = .success hr bm' dk' →
            bm'.numClear ≤ bm.numClear - drawnBound (.top s) := by
          intro L hL hone hloop
          have hb := ih dk bm (.loop L s s []) hr bm' dk' hL hloop
          have hspos : 0 < s := by omega
          simp only [drawnBound, if_pos hone] at *
          rw [if_pos hspos] at hb
          omega
        by_cases h3 : ThreeLevelSize < s
        · rw [if_pos h3] at heq
          exact interior ThreeLevelSize (by omega) (by omega) heq
        · rw [if_neg h3] at heq
          by_cases h2 : TwoLevelSize < s
          · rw [if_pos h2] at heq
            exact interior TwoLevelSize (by omega) (by omega) heq
          · rw [if_neg h2] at heq
            by_cases hone : OneLevelSize < s
            · rw [if_pos hone] at heq
              exact interior OneLevelSize (by omega) hone heq
            · rw [if_neg hone] at heq
              exact leafCase dk bm s hr bm' dk' hone heq
    | loop chunk nb0 r acc =>
      have hchunk : (0 : Int) < chunk := hok
      rw [allocGo.eq_def] at heq
      simp only at heq
      by_cases hrpos : 0 < r
      · rw [if_pos hrpos] at heq
        by_cases hfs : (bm.findAndSet).1 < 0
        · rw [if_pos hfs] at heq
          exact absurd heq (by simp)
        · rw [if_neg hfs] at heq
          obtain ⟨e1, -, -⟩ := findAndSet_nonneg_numClear bm (by omega)
          cases hchild : allocGo k dk (bm.findAndSet).2
              (.top (if chunk < r then chunk else r)) with
          | success ch bm2 dk2 =>
            rw [hchild] at heq
            have hchildB := ih dk (bm.findAndSet).2
              (.top (if chunk < r then chunk else r)) ch bm2 dk2 trivial hchild
            have hrest := ih (hdrWrite dk2 (bm.findAndSet).1 ch) bm2
              (.loop chunk nb0 (r - (if chunk < r then chunk else r))
                (acc ++ [(bm.findAndSet).1])) hr bm' dk' hchunk heq
            have hite2 : (0 : Int) ≤
                (if OneLevelSize < (if chunk < r then chunk else r) then (1 : Int) else 0) := by
              by_cases hx : OneLevelSize < (if chunk < r then chunk else r) <;> simp [hx]
            simp only [drawnBound, if_pos hrpos] at hchildB hrest ⊢
            by_cases hc : chunk < r
            · rw [if_pos hc] at hchildB hrest
              rw [if_pos (show (0 : Int) < r - chunk by omega)] at hrest
              have hsub := divRoundUp_add_le chunk (r - chunk) (by omega) (by omega)
              have hch : chunk + (r - chunk) = r := by ring
              rw [hch] at hsub
              omega
            · rw [if_neg hc] at hchildB hrest
              rw [if_neg (show ¬ (0 : Int) < r - r by omega)] at hrest
              omega
          | failure fh fb fd =>
            rw [hchild] at heq
            exact absurd heq (by simp)
          | assertFail =>
            rw [hchild] at heq
            exact absurd heq (by simp)
          | fuelOut =>
            rw [hchild] at heq
            exact absurd heq (by simp)
      · rw [if_neg hrpos] at heq
        obtain ⟨-, h2, -⟩ := AllocOut.success.inj heq
        subst h2
        simp only [drawnBound, if_neg hrpos]
        omega

/-- C5: an interior-mode allocation (size above OneLevelSize) that succeeds
draws strictly more than `ceil(size / S)` sectors from the allocator (child
header sectors come on top of the data sectors), while the up-front check
only compares NumClear against `ceil(size / S)` and a shortfall is rejected
before anything is reserved; consequently passing the check does not
guarantee completion: with 31 free sectors — exactly `ceil(3841/128)` —
`Allocate(3841)` passes the check and then dies on
`ASSERT(dataSectors[i] >= 0)` when FindAndSet returns -1, rather than
returning failure. -/
theorem C5_interior_overdraw :
    (∀ (fuel : Nat) (dk : HdrMap) (bm : Bitmap) (size : Int),
      OneLevelSize < size → (Allocate fuel dk bm size).isSuccess = true →
      divRoundUp size SectorSize <
        bm.numClear - (Allocate fuel dk bm size).numClearOf) ∧
    (∀ (fuel : Nat) (dk : HdrMap) (bm : Bitmap) (size : Int),
      0 ≤ size → bm.numClear < divRoundUp size SectorSize →
      Allocate fuel dk bm size =
        .failure ⟨size, divRoundUp size SectorSize, []⟩ bm dk) ∧
    (divRoundUp 3841 SectorSize ≤ (freeBits 31).numClear ∧
      (Allocate 100 hdrMap0 (freeBits 31) 3841).isAssertFail = true) := by
  refine ⟨?_, ?_, by decide, by decide⟩
  · intro fuel dk bm size hgt hsucc
    obtain ⟨hh, bb, dd, heq⟩ : ∃ hh bb dd,
        Allocate fuel dk bm size = .success hh bb dd := by
      cases hA : Allocate fuel dk bm size with
      | success hh bb dd => exact ⟨hh, bb, dd, rfl⟩
      | failure hh bb dd => rw [hA] at hsucc; simp [AllocOut.isSuccess] at hsucc
      | assertFail => rw [hA] at hsucc; simp [AllocOut.isSuccess] at hsucc
      | fuelOut => rw [hA] at hsucc; simp [AllocOut.isSuccess] at hsucc
    have hb := allocGo_success_numClear fuel dk bm (.top size) hh bb dd trivial heq
    rw [heq]
    simp only [drawnBound, if_pos hgt] at hb
    simp only [AllocOut.numClearOf]
    omega
  · intro fuel dk bm size h0 hlt
    unfold Allocate
    rw [allocGo.eq_def]
    simp only
    rw [if_pos hlt]

/-- C5 witness: with 40 free sectors `Allocate(3841)` succeeds and draws 33
sectors — strictly more than `ceil(3841/128) = 31`. -/
theorem C5_interior_overdraw_witness :
    OneLevelSize < (3841 : Int) ∧
    (Allocate 100 hdrMap0 (freeBits 40) 3841).isSuccess = true ∧
    divRoundUp 3841 SectorSize <
      (freeBits 40).numClear - (Allocate 100 hdrMap0 (freeBits 40) 3841).numClearOf :=
  ⟨by decide, by decide,
    C5_interior_overdraw.1 100 hdrMap0 (freeBits 40) 3841 (by decide) (by decide)⟩

theorem clearMany_append (bm : Bitmap) (a b : List Int) :
    clearMany (clearMany bm a) b = clearMany bm (a ++ b) :=
  (List.foldl_append Bitmap.clear bm a b).symm

theorem clearMany_trace (l : List Int) : ∀ bm : Bitmap,
    (clearMany bm l).trace = bm.trace ++ l := by
  induction l with
  | nil => intro bm; simp [clearMany]
  | cons s rest ih =>
    intro bm
    show (clearMany (bm.clear s) rest).trace = _
    rw [ih, clear_trace]
    simp

theorem clearMany_testAt_notMem (l : List Int) : ∀ (bm : Bitmap) (s : Int),
    s ∉ l → (clearMany bm l).testAt s = bm.testAt s := by
  induction l with
  | nil => intro bm s _; rfl
  | cons t rest ih =>
    intro bm s hs
    show (clearMany (bm.clear t) rest).testAt s = _
    rw [ih _ _ (fun h => hs (List.mem_cons_of_mem _ h)),
      clear_testAt_ne _ _ _ (fun h => hs (by rw [h]; exact List.mem_cons_self t rest))]

theorem clearMany_bits_length (l : List Int) : ∀ bm : Bitmap,
    (clearMany bm l).bits.length = bm.bits.length := by
  induction l with
  | nil => intro bm; rfl
  | cons t rest ih =>
    intro bm
    show (clearMany (bm.clear t) rest).bits.length = _
    rw [ih, clear_bits_length]

theorem clear_testAt_self (bm : Bitmap) (s : Int) (h0 : 0 ≤ s)
    (hlen : s.toNat < bm.bits.length) :
    (bm.clear s).testAt s = false := by
  unfold Bitmap.clear Bitmap.testAt
  simp [h0]
  rw [List.getElem?_set_self (by simpa using hlen)]
  simp

theorem clearMany_testAt_mem (l : List Int) : ∀ (bm : Bitmap) (s : Int),
    s ∈ l → 0 ≤ s → s.toNat < bm.bits.length →
    (clearMany bm l).testAt s = false := by
  induction l with
  | nil => intro bm s hs; simp at hs
  | cons t rest ih =>
    intro bm s hs h0 hlen
    show (clearMany (bm.clear t) rest).testAt s = false
    by_cases hmem : s ∈ rest
    · exact ih _ _ hmem h0 (by rw [clear_bits_length]; exact hlen)
    · have hst : s = t := by
        rcases List.mem_cons.mp hs with h | h
        · exact h
        · exact absurd h hmem
      subst hst
      rw [clearMany_testAt_notMem _ _ _ hmem]
      exact clear_testAt_self bm s h0 hlen

theorem clearMany_numClear (l : List Int) : ∀ bm : Bitmap,
    l.Nodup →
    (∀ s ∈ l, 0 ≤ s ∧ s.toNat < bm.bits.length ∧ bm.testAt s = true) →
    (clearMany bm l).numClear = bm.numClear + l.length := by
  induction l with
  | nil => intro bm _ _; simp [clearMany]
  | cons t rest ih =>
    intro bm hnd hall
    obtain ⟨h0, hlen, hset⟩ := hall t (List.mem_cons_self t rest)
    show (clearMany (bm.clear t) rest).numClear = _
    rw [ih (bm.clear t) (List.Nodup.of_cons hnd) ?pres]
    · rw [clear_numClear_of_set bm t h0 hlen hset]
      simp
      ring
    case pres =>
      intro s hs
      obtain ⟨s0, slen, sset⟩ := hall s (List.mem_cons_of_mem _ hs)
      have hne : s ≠ t := by
        intro h
        subst h
        exact (List.nodup_cons.mp hnd).1 hs
      refine ⟨s0, by rw [clear_bits_length]; exact slen, ?_⟩
      rw [clear_testAt_ne _ _ _ hne]
      exact sset

theorem foldl_clear_zip :
    ∀ (css : List (List Int)) (ps : List Int) (bm : Bitmap)
      (f : Bitmap → Int → Bitmap),
      css.length = ps.length →
      (∀ (i : Nat) (hc : i < css.length) (hp : i < ps.length) (b : Bitmap),
        f b (ps.get ⟨i, hp⟩) = clearMany b (css.get ⟨i, hc⟩)) →
      ps.foldl (fun b p => (f b p).clear p) bm =
        clearMany bm ((css.zipWith (fun cs p => cs ++ [p]) ps).flatten) := by
  intro css
  induction css with
  | nil =>
    intro ps bm f hlen _
    cases ps with
    | nil => rfl
    | cons p ps2 => simp at hlen
  | cons cs rest ih =>
    intro ps bm f hlen hmem
    cases ps with
    | nil => simp at hlen
    | cons p ps' =>
      have hstep : f bm p = clearMany bm cs := hmem 0 (by simp) (by simp) bm
      show ps'.foldl _ ((f bm p).clear p) = _
      rw [hstep]
      have hclear : (clearMany bm cs).clear p = clearMany bm (cs ++ [p]) := by
        rw [← clearMany_append]
        rfl
      rw [hclear]
      rw [ih ps' (clearMany bm (cs ++ [p])) f (by simpa using hlen) ?hm]
      · rw [clearMany_append]
        simp
      case hm =>
        intro i hc hp b
        have := hmem (i + 1) (by simpa using Nat.succ_lt_succ hc)
          (by simpa using Nat.succ_lt_succ hp) b
        simpa using this

theorem Deallocate_eq (fuel : Nat) (hA : HdrMap) (bm : Bitmap) (h : FileHeaderRec) :
    Deallocate fuel hA bm h =
      if OneLevelSize < h.numBytes then
        match fuel with
        | 0 => bm
        | k + 1 =>
          (ptrList h).foldl (fun b p => (Deallocate k hA b (hA p)).clear p) bm
      else (ptrList h).foldl (fun b p => b.clear p) bm := by
  rw [Deallocate.eq_def]

theorem Deallocate_spec {hA : HdrMap} :
    ∀ {fuel : Nat} {h : FileHeaderRec} {secs : List Int},
      HdrTreeF hA fuel h secs →
      ∀ bm : Bitmap, Deallocate fuel hA bm h = clearMany bm secs := by
  intro fuel h secs ht
  induction ht with
  | leaf fuel h hle =>
    intro bm
    rw [Deallocate_eq]
    rw [if_neg (not_lt.mpr hle)]
    rfl
  | interior fuel h css hgt hlen hch ih =>
    intro bm
    rw [Deallocate_eq]
    rw [if_pos hgt]
    show (ptrList h).foldl (fun b p => (Deallocate fuel hA b (hA p)).clear p) bm = _
    apply foldl_clear_zip css (ptrList h) bm
      (fun b p => Deallocate fuel hA b (hA p))
      (by simp [ptrList, hlen])
    intro i hc hp b
    have hpi : (ptrList h).get ⟨i, hp⟩ = ptrAt h i := by
      simp [ptrList]
    rw [hpi]
    exact ih i hc b

/-- C9: for a consistently allocated header, Deallocate clears exactly the
sectors reachable from it — the used pointer slots at a leaf and, for an
interior node, each child's subtree followed by that child's own header
sector — in that order, and never touches the sector `s0` that holds this
header itself (the caller owns it). -/
theorem C9_deallocate_exact (hA : HdrMap) (fuel : Nat) (h : FileHeaderRec)
    (secs : List Int) (bm : Bitmap) (s0 : Int)
    (ht : HdrTreeF hA fuel h secs) (_hs0 : hA s0 = h) (hnot : s0 ∉ secs) :
    Deallocate fuel hA bm h = clearMany bm secs ∧
    (Deallocate fuel hA bm h).trace = bm.trace ++ secs ∧
    (Deallocate fuel hA bm h).testAt s0 = bm.testAt s0 := by
  have hd := Deallocate_spec ht bm
  exact ⟨hd, by rw [hd, clearMany_trace],
    by rw [hd, clearMany_testAt_notMem _ _ _ hnot]⟩

/-- C9 witness: the leaf file header stored at sector 5 (data sector 3);
deallocating clears exactly sector 3 and leaves sector 5 untouched. -/
theorem C9_deallocate_exact_witness :
    hdrMapW 5 = ⟨128, 1, [3]⟩ ∧ (5 : Int) ∉ [(3 : Int)] ∧
    Deallocate 0 hdrMapW (freeBits 8) ⟨128, 1, [3]⟩ =
      clearMany (freeBits 8) [3] :=
  ⟨by decide, by decide,
    (C9_deallocate_exact hdrMapW 0 ⟨128, 1, [3]⟩ [3] (freeBits 8) 5
      (HdrTreeF.leaf 0 ⟨128, 1, [3]⟩ (by decide)) (by decide) (by decide)).1⟩

theorem ByteToSector_eq (fuel : Nat) (hA : HdrMap) (h : FileHeaderRec) (offset : Int) :
    ByteToSector fuel hA h offset =
      if ThreeLevelSize < h.numBytes then
        match fuel with
        | 0 => none
        | k + 1 =>
          ByteToSector k hA (hA (ptrAt h (divRoundDown offset ThreeLevelSize).toNat))
            (offset - divRoundDown offset ThreeLevelSize * ThreeLevelSize)
      else if TwoLevelSize < h.numBytes then
        match fuel with
        | 0 => none
        | k + 1 =>
          ByteToSector k hA (hA (ptrAt h (divRoundDown offset TwoLevelSize).toNat))
            (offset - divRoundDown offset TwoLevelSize * TwoLevelSize)
      else if OneLevelSize < h.numBytes then
        match fuel with
        | 0 => none
        | k + 1 =>
          ByteToSector k hA (hA (ptrAt h (divRoundDown offset OneLevelSize).toNat))
            (offset - divRoundDown offset OneLevelSize * OneLevelSize)
      else some (ptrAt h (offset.tdiv SectorSize).toNat) := by
  rw [ByteToSector.eq_def]

theorem ptrList_getD (h : FileHeaderRec) (i : Nat) (hi : i < h.numSectors.toNat) :
    (ptrList h).getD i (-1) = ptrAt h i := by
  unfold ptrList
  rw [List.getD_eq_getElem?_getD]
  rw [List.getElem?_map]
  rw [List.getElem?_range hi]
  rfl

theorem flatten_getD :
    ∀ (dss : List (List Int)) (m i q : Nat) (hi : i < dss.length),
      (∀ j (hj : j < dss.length), j < i → (dss.get ⟨j, hj⟩).length = m) →
      q < (dss.get ⟨i, hi⟩).length →
      dss.flatten.getD (i * m + q) (-1) = (dss.get ⟨i, hi⟩).getD q (-1) := by
  intro dss
  induction dss with
  | nil => intro m i q hi; simp at hi
  | cons d rest ih =>
    intro m i q hi hpre hq
    cases i with
    | zero =>
      simp only [List.get] at hq ⊢
      show (d ++ rest.flatten).getD (0 * m + q) (-1) = _
      rw [Nat.zero_mul, Nat.zero_add]
      rw [List.getD_eq_getElem?_getD, List.getD_eq_getElem?_getD]
      rw [List.getElem?_append_left hq]
    | succ i' =>
      have hd : d.length = m := by
        have := hpre 0 (by simp) (Nat.succ_pos i')
        simpa using this
      show (d ++ rest.flatten).getD ((i' + 1) * m + q) (-1) = _
      rw [List.getD_eq_getElem?_getD]
      rw [List.getElem?_append_right (by
        rw [hd]
        calc m ≤ i' * m + m := by omega
        _ = (i' + 1) * m := by ring
        _ ≤ (i' + 1) * m + q := by omega)]
      have hidx : (i' + 1) * m + q - d.length = i' * m + q := by
        rw [hd]; ring_nf; omega
      rw [hidx]
      rw [← List.getD_eq_getElem?_getD]
      have := ih m i' q (by simpa using Nat.lt_of_succ_lt_succ hi)
        (by
          intro j hj hji
          have := hpre (j + 1) (by simpa using Nat.succ_lt_succ hj)
            (Nat.succ_lt_succ hji)
          simpa using this)
        (by simpa using hq)
      rw [this]
      rfl

theorem sum_lengths :
    ∀ (dss : List (List Int)) (m last : Nat),
      0 < dss.length →
      (∀ i (hi : i < dss.length),
        (dss.get ⟨i, hi⟩).length = if i + 1 < dss.length then m else last) →
      dss.flatten.length = (dss.length - 1) * m + last := by
  intro dss
  induction dss with
  | nil => intro m last h; simp at h
  | cons d rest ih =>
    intro m last _ hlens
    by_cases hl0 : rest.length = 0
    · have hrnil : rest = [] := List.length_eq_zero.mp hl0
      subst hrnil
      have := hlens 0 (by simp)
      simp at this ⊢
      exact this
    · have hlenpos : 0 < rest.length := by omega
      have hd : d.length = m := by
        have := hlens 0 (by simp)
        rw [if_pos (by simp only [List.length_cons]; omega)] at this
        simpa using this
      have hrec := ih m last hlenpos (by
        intro i hi
        have h2 := hlens (i + 1) (by simpa using Nat.succ_lt_succ hi)
        simp only [List.length_cons] at h2
        by_cases hc2 : i + 1 < rest.length
        · rw [if_pos (show i + 1 + 1 < rest.length + 1 by omega)] at h2
          rw [if_pos hc2]
          simpa using h2
        · rw [if_neg (show ¬ i + 1 + 1 < rest.length + 1 by omega)] at h2
          rw [if_neg hc2]
          simpa using h2)
      show (d ++ rest.flatten).length = _
      rw [List.length_append, hd, hrec]
      simp only [List.length_cons]
      obtain ⟨t, ht⟩ : ∃ t, rest.length = t + 1 :=
        ⟨rest.length - 1, by omega⟩
      rw [ht]
      simp only [Nat.add_sub_cancel]
      ring

theorem chunkOf_cases (n : Int) :
    chunkOf n = OneLevelSize ∨ chunkOf n = TwoLevelSize ∨ chunkOf n = ThreeLevelSize := by
  unfold chunkOf
  by_cases h3 : ThreeLevelSize < n
  · simp [h3]
  · by_cases h2 : TwoLevelSize < n
    · simp [h3, h2]
    · simp [h3, h2]

theorem covers_length_arith (n cnt : Int) (len m : Nat) (c : Int)
    (hcm : (c = OneLevelSize ∧ m = 30) ∨ (c = TwoLevelSize ∧ m = 900) ∨
      (c = ThreeLevelSize ∧ m = 27000))
    (hlen : len = cnt.toNat) (hcnt : 0 < cnt)
    (hlow : c * (cnt - 1) < n) (hhigh : n ≤ c * cnt) :
    (len - 1) * m + (divRoundUp (n - c * (cnt - 1)) SectorSize).toNat =
      (divRoundUp n SectorSize).toNat := by
  have hcpos : (0 : Int) < c := by
    rcases hcm with ⟨rfl, -⟩ | ⟨rfl, -⟩ | ⟨rfl, -⟩ <;>
      norm_num [OneLevelSize, TwoLevelSize, ThreeLevelSize]
  have hn0 : (0 : Int) ≤ n := by nlinarith
  rw [divRoundUp_nonneg_eq _ (by nlinarith), divRoundUp_nonneg_eq _ hn0]
  unfold SectorSize
  rcases hcm with ⟨rfl, rfl⟩ | ⟨rfl, rfl⟩ | ⟨rfl, rfl⟩ <;>
    simp only [OneLevelSize, TwoLevelSize, ThreeLevelSize] at * <;> omega

theorem Covers_length {hA : HdrMap} :
    ∀ {fuel : Nat} {h : FileHeaderRec} {ds : List Int},
      Covers hA fuel h ds →
      0 ≤ h.numBytes ∧ ds.length = (divRoundUp h.numBytes SectorSize).toNat := by
  intro fuel h ds hc
  induction hc with
  | leaf fuel h h0 hle hns =>
    refine ⟨h0, ?_⟩
    unfold ptrList
    simp [hns]
  | interior fuel h dss hgt hlen hcnt hlow hhigh hch hbytes ih =>
    have hn0 : (0 : Int) ≤ h.numBytes := by
      have : (0 : Int) < OneLevelSize := by norm_num [OneLevelSize]
      omega
    refine ⟨hn0, ?_⟩
    have hdsslen : 0 < dss.length := by
      rw [hlen]; omega
    have hsum := sum_lengths dss (divRoundUp (chunkOf h.numBytes) SectorSize).toNat
      (divRoundUp (h.numBytes - chunkOf h.numBytes * (h.numSectors - 1))
        SectorSize).toNat
      hdsslen (by
        intro i hi
        obtain ⟨-, hl⟩ := ih i hi
        rw [hl, hbytes i hi]
        by_cases hil : i + 1 < dss.length
        · rw [if_pos hil, if_pos hil]
        · rw [if_neg hil, if_neg hil])
    rw [hsum]
    have key := covers_length_arith h.numBytes h.numSectors dss.length
      (divRoundUp (chunkOf h.numBytes) SectorSize).toNat (chunkOf h.numBytes)
      ?hcm hlen hcnt hlow hhigh
    case hcm =>
      rcases chunkOf_cases h.numBytes with h' | h' | h'
      · exact Or.inl ⟨h', by rw [h']; decide⟩
      · exact Or.inr (Or.inl ⟨h', by rw [h']; decide⟩)
      · exact Or.inr (Or.inr ⟨h', by rw [h']; decide⟩)
    exact key

theorem tdiv128_eq (o : Int) (ho : 0 ≤ o) : o.tdiv SectorSize = o / 128 := by
  unfold SectorSize
  exact Int.tdiv_eq_ediv ho (by norm_num)

theorem covers_interior_step (hA : HdrMap) (fuel : Nat) (h : FileHeaderRec)
    (dss : List (List Int)) (c o : Int)
    (hcase : c = OneLevelSize ∨ c = TwoLevelSize ∨ c = ThreeLevelSize)
    (hlen : dss.length = h.numSectors.toNat)
    (hcnt : 0 < h.numSectors)
    (hlow : c * (h.numSectors - 1) < h.numBytes)
    (hhigh : h.numBytes ≤ c * h.numSectors)
    (hbytes : ∀ i (hi : i < dss.length),
      (hA (ptrAt h i)).numBytes =
        if i + 1 < dss.length then c
        else h.numBytes - c * (h.numSectors - 1))
    (hlens : ∀ i (hi : i < dss.length),
      (dss.get ⟨i, hi⟩).length =
        (divRoundUp (hA (ptrAt h i)).numBytes SectorSize).toNat)
    (ihs : ∀ i (hi : i < dss.length) (off : Int), 0 ≤ off →
      off < (hA (ptrAt h i)).numBytes →
      ByteToSector fuel hA (hA (ptrAt h i)) off =
        some ((dss.get ⟨i, hi⟩).getD (off.tdiv SectorSize).toNat (-1)))
    (ho : 0 ≤ o) (hlt : o < h.numBytes) :
    ByteToSector fuel hA (hA (ptrAt h (divRoundDown o c).toNat))
        (o - divRoundDown o c * c) =
      some (dss.flatten.getD (o.tdiv SectorSize).toNat (-1)) := by
  have hcpos : (0 : Int) < c := by
    rcases hcase with rfl | rfl | rfl <;>
      norm_num [OneLevelSize, TwoLevelSize, ThreeLevelSize]
  have hdiv : divRoundDown o c = o / c := by
    unfold divRoundDown
    exact Int.tdiv_eq_ediv ho (le_of_lt hcpos)
  have hremod : o - o / c * c = o % c := by
    rw [Int.emod_def]; ring
  have hiZ0 : 0 ≤ o / c := Int.ediv_nonneg ho (le_of_lt hcpos)
  have hilt : o / c < h.numSectors := by
    rcases hcase with rfl | rfl | rfl <;>
      simp only [OneLevelSize, TwoLevelSize, ThreeLevelSize] at * <;> omega
  have hiN : (o / c).toNat < dss.length := by
    rw [hlen]; omega
  have hmod0 : 0 ≤ o % c := Int.emod_nonneg o (ne_of_gt hcpos)
  have hmodc : o % c < c := Int.emod_lt_of_pos o hcpos
  have hmodeq : o % c = o - o / c * c := hremod.symm
  have hb := hbytes (o / c).toNat hiN
  have ho'lt : o % c < (hA (ptrAt h (o / c).toNat)).numBytes := by
    rw [hb]
    by_cases hil : (o / c).toNat + 1 < dss.length
    · rw [if_pos hil]
      exact hmodc
    · rw [if_neg hil]
      rw [hlen] at hil
      rcases hcase with rfl | rfl | rfl <;>
        simp only [OneLevelSize, TwoLevelSize, ThreeLevelSize] at * <;> omega
  rw [hdiv, hremod]
  rw [ihs (o / c).toNat hiN (o % c) hmod0 ho'lt]
  congr 1
  have hm : ∀ j (hj : j < dss.length), j < (o / c).toNat →
      (dss.get ⟨j, hj⟩).length = (divRoundUp c SectorSize).toNat := by
    intro j hj hji
    rw [hlens j hj, hbytes j hj, if_pos (by omega)]
  have hq : ((o % c).tdiv SectorSize).toNat < (dss.get ⟨(o / c).toNat, hiN⟩).length := by
    rw [hlens (o / c).toNat hiN, hb]
    rw [tdiv128_eq _ hmod0]
    by_cases hil : (o / c).toNat + 1 < dss.length
    · rw [if_pos hil]
      rw [divRoundUp_nonneg_eq _ (le_of_lt hcpos)]
      unfold SectorSize
      omega
    · rw [if_neg hil]
      rw [divRoundUp_nonneg_eq _ (by omega)]
      unfold SectorSize
      rw [hlen] at hil
      rcases hcase with rfl | rfl | rfl <;>
        simp only [OneLevelSize, TwoLevelSize, ThreeLevelSize] at * <;> omega
  have hidx : (o.tdiv SectorSize).toNat =
      (o / c).toNat * (divRoundUp c SectorSize).toNat +
        ((o % c).tdiv SectorSize).toNat := by
    rw [tdiv128_eq _ ho, tdiv128_eq _ hmod0]
    rcases hcase with rfl | rfl | rfl
    · rw [show (divRoundUp OneLevelSize SectorSize).toNat = 30 from by decide]
      simp only [OneLevelSize] at *
      omega
    · rw [show (divRoundUp TwoLevelSize SectorSize).toNat = 900 from by decide]
      simp only [TwoLevelSize] at *
      omega
    · rw [show (divRoundUp ThreeLevelSize SectorSize).toNat = 27000 from by decide]
      simp only [ThreeLevelSize] at *
      omega
  rw [hidx]
  exact (flatten_getD dss (divRoundUp c SectorSize).toNat (o / c).toNat
    ((o % c).tdiv SectorSize).toNat hiN hm hq).symm

theorem ByteToSector_spec {hA : HdrMap} :
    ∀ {fuel : Nat} {h : FileHeaderRec} {ds : List Int},
      Covers hA fuel h ds →
      ∀ offset : Int, 0 ≤ offset → offset < h.numBytes →
      ByteToSector fuel hA h offset =
        some (ds.getD (offset.tdiv SectorSize).toNat (-1)) := by
  intro fuel h ds hc
  induction hc with
  | leaf fuel h h0 hle hns =>
    intro o ho hlt
    rw [ByteToSector_eq]
    have hl3 : ¬ ThreeLevelSize < h.numBytes := by
      simp only [OneLevelSize, ThreeLevelSize] at *
      omega
    have hl2 : ¬ TwoLevelSize < h.numBytes := by
      simp only [OneLevelSize, TwoLevelSize] at *
      omega
    have hl1 : ¬ OneLevelSize < h.numBytes := not_lt.mpr hle
    rw [if_neg hl3, if_neg hl2, if_neg hl1]
    congr 1
    have hidxlt : (o.tdiv SectorSize).toNat < h.numSectors.toNat := by
      rw [hns, tdiv128_eq o ho, divRoundUp_nonneg_eq _ h0]
      unfold SectorSize
      omega
    rw [ptrList_getD h _ hidxlt]
  | interior fuel h dss hgt hlen hcnt hlow hhigh hch hbytes ih =>
    intro o ho hlt
    have hlens : ∀ i (hi : i < dss.length),
        (dss.get ⟨i, hi⟩).length =
          (divRoundUp (hA (ptrAt h i)).numBytes SectorSize).toNat :=
      fun i hi => (Covers_length (hch i hi)).2
    rw [ByteToSector_eq]
    by_cases h3 : ThreeLevelSize < h.numBytes
    · rw [if_pos h3]
      have hcc : chunkOf h.numBytes = ThreeLevelSize := by
        unfold chunkOf
        rw [if_pos h3]
      rw [hcc] at hlow hhigh hbytes
      exact covers_interior_step hA fuel h dss ThreeLevelSize o
        (Or.inr (Or.inr rfl)) hlen hcnt hlow hhigh hbytes hlens ih ho hlt
    · rw [if_neg h3]
      by_cases h2 : TwoLevelSize < h.numBytes
      · rw [if_pos h2]
        have hcc : chunkOf h.numBytes = TwoLevelSize := by
          unfold chunkOf
          rw [if_neg h3, if_pos h2]
        rw [hcc] at hlow hhigh hbytes
        exact covers_interior_step hA fuel h dss TwoLevelSize o
          (Or.inr (Or.inl rfl)) hlen hcnt hlow hhigh hbytes hlens ih ho hlt
      · rw [if_neg h2, if_pos hgt]
        have hcc : chunkOf h.numBytes = OneLevelSize := by
          unfold chunkOf
          rw [if_neg h3, if_neg h2]
        rw [hcc] at hlow hhigh hbytes
        exact covers_interior_step hA fuel h dss OneLevelSize o
          (Or.inl rfl) hlen hcnt hlow hhigh hbytes hlens ih ho hlt

/-- C6: for a consistently allocated header and any in-range offset,
ByteToSector in leaf mode returns `dataSectors[offset / S]`, and in interior
mode divides by the chunk one level below, fetches the child header at that
pointer slot and recurses with the remainder — and the result is exactly the
data sector holding that byte: entry `offset / S` of the file's ordered data
sector list. -/
theorem C6_byteToSector (hA : HdrMap) (fuel : Nat) (h : FileHeaderRec)
    (ds : List Int) (offset : Int)
    (hc : Covers hA fuel h ds) (h0 : 0 ≤ offset) (hlt : offset < h.numBytes) :
    ByteToSector fuel hA h offset =
      some (ds.getD (offset.tdiv SectorSize).toNat (-1)) ∧
    (h.numBytes ≤ OneLevelSize →
      ByteToSector fuel hA h offset =
        some (ptrAt h (offset.tdiv SectorSize).toNat)) := by
  refine ⟨ByteToSector_spec hc offset h0 hlt, ?_⟩
  intro hle
  rw [ByteToSector_eq]
  have hl3 : ¬ ThreeLevelSize < h.numBytes := by
    simp only [OneLevelSize, ThreeLevelSize] at *
    omega
  have hl2 : ¬ TwoLevelSize < h.numBytes := by
    simp only [OneLevelSize, TwoLevelSize] at *
    omega
  rw [if_neg hl3, if_neg hl2, if_neg (not_lt.mpr hle)]

/-- C6 witness: byte 5 of the 128-byte leaf file at sector 5 lives in data
sector 3. -/
theorem C6_byteToSector_witness :
    (0 : Int) ≤ 5 ∧ (5 : Int) < 128 ∧
    ByteToSector 0 hdrMapW ⟨128, 1, [3]⟩ 5 = some ([(3 : Int)].getD 0 (-1)) :=
  ⟨by decide, by decide,
    (C6_byteToSector hdrMapW 0 ⟨128, 1, [3]⟩ [3] 5
      (Covers.leaf 0 ⟨128, 1, [3]⟩ (by decide) (by decide) (by decide))
      (by decide) (by decide)).1⟩

theorem set_get_self (l : List DirEntry) (i : Nat) (hi : i < l.length) :
    l.set i (l.get ⟨i, hi⟩) = l := by
  apply List.ext_getElem?
  intro n
  by_cases hn : n = i
  · subst hn
    rw [List.getElem?_set_self (by simpa using hi)]
    simp [List.getElem?_eq_getElem hi]
  · rw [List.getElem?_set_ne (fun h => hn h.symm)]

theorem map_markFree_of_free :
    ∀ (tbl : List DirEntry), (∀ e ∈ tbl, e.inUse = false) →
      tbl.map markFree = tbl := by
  intro tbl h
  induction tbl with
  | nil => rfl
  | cons e rest ih =>
    have he := h e (List.mem_cons_self e rest)
    have hme : markFree e = e := by
      unfold markFree
      cases e
      simp_all
    simp only [List.map_cons, hme]
    rw [ih (fun x hx => h x (List.mem_cons_of_mem _ hx))]

theorem nodup_chop (a : List Int) (x : Int) (b : List Int)
    (h : (a ++ x :: b).Nodup) :
    b.Nodup ∧ ∀ s ∈ b, s ∉ a ++ [x] := by
  rw [List.nodup_append] at h
  obtain ⟨ha, hxb, hdisj⟩ := h
  rw [List.nodup_cons] at hxb
  refine ⟨hxb.2, ?_⟩
  intro s hs hmem
  rw [List.mem_append] at hmem
  rcases hmem with hma | hmx
  · exact hdisj hma (List.mem_cons_of_mem _ hs)
  · simp at hmx
    subst hmx
    exact hxb.1 hs

theorem remove_at (ml : Nat) (tbl : List DirEntry) (i : Nat) (hi : i < tbl.length)
    (hpre : ∀ j (hj : j < tbl.length), j < i → (tbl.get ⟨j, hj⟩).inUse = false)
    (hin : (tbl.get ⟨i, hi⟩).inUse = true) :
    Remove ml tbl (tbl.get ⟨i, hi⟩).name =
      (true, tbl.set i (markFree (tbl.get ⟨i, hi⟩))) := by
  have hin2 : tbl[i].inUse = true := hin
  have hfi : FindIndex ml tbl (tbl.get ⟨i, hi⟩).name = ((0 + i : Nat) : Int) := by
    apply findIndexAux_first ml (tbl.get ⟨i, hi⟩).name tbl 0 i hi
    · unfold entryMatches nameMatch
      simp [hin2]
    · intro j hj hji
      have h0 : tbl[j].inUse = false := hpre j hj hji
      unfold entryMatches
      simp [h0]
  rw [Nat.zero_add] at hfi
  unfold Remove
  simp only [hfi]
  rw [if_neg (by omega)]
  unfold clearSlot
  rw [show ((i : Int).toNat) = i from by omega]
  rw [List.getElem?_eq_getElem hi]
  rfl

theorem TableTree_frame :
    ∀ {fuel : Nat} {dk : DiskState} {tbl : List DirEntry} {secs : List Int},
      TableTree fuel dk tbl secs →
      ∀ dk' : DiskState, dk'.hdrAt = dk.hdrAt →
      (∀ s ∈ secs, dk'.dirAt s = dk.dirAt s) →
      TableTree fuel dk' tbl secs := by
  intro fuel dk tbl secs htt
  induction htt with
  | nil fuel dk =>
    intro dk' _ _
    exact TableTree.nil fuel dk'
  | skip fuel dk e rest secs hnot htt ih =>
    intro dk' hh hd
    exact TableTree.skip fuel dk' e rest secs hnot (ih dk' hh hd)
  | file fuel dk e rest hsecs rsecs hin hnotd hhdr htt ih =>
    intro dk' hh hd
    apply TableTree.file fuel dk' e rest hsecs rsecs hin hnotd
    · rw [hh]
      exact hhdr
    · exact ih dk' hh (fun s hs => hd s (by simp [hs]))
  | dir fuel dk e rest nsecs hsecs rsecs hin hisd hnest hhdr htt ihn ihr =>
    intro dk' hh hd
    have hde : dk'.dirAt e.sector = dk.dirAt e.sector := hd e.sector (by simp)
    apply TableTree.dir fuel dk' e rest nsecs hsecs rsecs hin hisd
    · rw [hde]
      exact ihn dk' hh (fun s hs => hd s (by simp [hs]))
    · rw [hh]
      exact hhdr
    · exact ihr dk' hh (fun s hs => hd s (by simp [hs]))

theorem rrAux_eq (ml fuel : Nat) (dk : DiskState) (bm : Bitmap)
    (tbl : List DirEntry) (i : Nat) :
    RecursiveRemoveAux ml fuel dk bm tbl i =
      if hi : i < tbl.length then
        if (tbl.get ⟨i, hi⟩).inUse && !(tbl.get ⟨i, hi⟩).isDir then
          RecursiveRemoveAux ml fuel dk
            ((Deallocate fuel dk.hdrAt bm (dk.hdrAt (tbl.get ⟨i, hi⟩).sector)).clear
              (tbl.get ⟨i, hi⟩).sector)
            (Remove ml tbl (tbl.get ⟨i, hi⟩).name).2 (i + 1)
        else if (tbl.get ⟨i, hi⟩).inUse && (tbl.get ⟨i, hi⟩).isDir then
          match fuel with
          | 0 => (tbl, bm, dk)
          | k + 1 =>
            let r := RecursiveRemoveAux ml k dk bm
              (dk.dirAt (tbl.get ⟨i, hi⟩).sector) 0
            let dk1 := writeDir r.2.2 (tbl.get ⟨i, hi⟩).sector r.1
            RecursiveRemoveAux ml (k + 1) dk1
              ((Deallocate (k + 1) dk1.hdrAt r.2.1
                (dk1.hdrAt (tbl.get ⟨i, hi⟩).sector)).clear
                (tbl.get ⟨i, hi⟩).sector)
              (Remove ml tbl (tbl.get ⟨i, hi⟩).name).2 (i + 1)
        else RecursiveRemoveAux ml fuel dk bm tbl (i + 1)
      else (tbl, bm, dk) := by
  rw [RecursiveRemoveAux.eq_def]

theorem rrAux_base (ml fuel : Nat) (dk : DiskState) (bm : Bitmap)
    (tbl : List DirEntry) (i : Nat) (hge : ¬ i < tbl.length) :
    RecursiveRemoveAux ml fuel dk bm tbl i = (tbl, bm, dk) := by
  rw [rrAux_eq, dif_neg hge]

theorem rrAux_done (ml fuel : Nat) (dk : DiskState) (bm : Bitmap)
    (tbl : List DirEntry) (i : Nat) (secs : List Int)
    (hge : ¬ i < tbl.length)
    (htt : TableTree fuel dk (tbl.drop i) secs)
    (hpre : ∀ j (hj : j < tbl.length), j < i → (tbl.get ⟨j, hj⟩).inUse = false) :
    (RecursiveRemoveAux ml fuel dk bm tbl i).1 = tbl.map markFree ∧
    (RecursiveRemoveAux ml fuel dk bm tbl i).2.1 = clearMany bm secs ∧
    (RecursiveRemoveAux ml fuel dk bm tbl i).2.2.hdrAt = dk.hdrAt ∧
    (∀ s, s ∉ secs →
      (RecursiveRemoveAux ml fuel dk bm tbl i).2.2.dirAt s = dk.dirAt s) := by
  have hdrop : tbl.drop i = [] := List.drop_eq_nil_of_le (by omega)
  rw [hdrop] at htt
  have hsecs : secs = [] := by cases htt; rfl
  subst hsecs
  rw [rrAux_base ml fuel dk bm tbl i hge]
  refine ⟨?_, rfl, rfl, fun s _ => rfl⟩
  refine (map_markFree_of_free tbl ?_).symm
  intro e he
  obtain ⟨⟨j, hj⟩, hget⟩ := List.mem_iff_get.mp he
  rw [← hget]
  exact hpre j hj (by omega)

theorem rrAux_spec (ml : Nat) :
    ∀ (fuel : Nat) (dk : DiskState) (bm : Bitmap) (tbl : List DirEntry)
      (i : Nat) (secs : List Int),
      TableTree fuel dk (tbl.drop i) secs →
      (∀ j (hj : j < tbl.length), j < i → (tbl.get ⟨j, hj⟩).inUse = false) →
      secs.Nodup →
      (∀ s ∈ secs, 0 ≤ s ∧ s.toNat < bm.bits.length ∧ bm.testAt s = true) →
      (RecursiveRemoveAux ml fuel dk bm tbl i).1 = tbl.map markFree ∧
      (RecursiveRemoveAux ml fuel dk bm tbl i).2.1 = clearMany bm secs ∧
      (RecursiveRemoveAux ml fuel dk bm tbl i).2.2.hdrAt = dk.hdrAt ∧
      (∀ s, s ∉ secs →
        (RecursiveRemoveAux ml fuel dk bm tbl i).2.2.dirAt s = dk.dirAt s) := by
  intro fuel
  induction fuel using Nat.strong_induction_on with
  | _ fuel ihf =>
  suffices H : ∀ (n : Nat) (dk : DiskState) (bm : Bitmap) (tbl : List DirEntry)
      (i : Nat) (secs : List Int), tbl.length - i ≤ n →
      TableTree fuel dk (tbl.drop i) secs →
      (∀ j (hj : j < tbl.length), j < i → (tbl.get ⟨j, hj⟩).inUse = false) →
      secs.Nodup →
      (∀ s ∈ secs, 0 ≤ s ∧ s.toNat < bm.bits.length ∧ bm.testAt s = true) →
      (RecursiveRemoveAux ml fuel dk bm tbl i).1 = tbl.map markFree ∧
      (RecursiveRemoveAux ml fuel dk bm tbl i).2.1 = clearMany bm secs ∧
      (RecursiveRemoveAux ml fuel dk bm tbl i).2.2.hdrAt = dk.hdrAt ∧
      (∀ s, s ∉ secs →
        (RecursiveRemoveAux ml fuel dk bm tbl i).2.2.dirAt s = dk.dirAt s) by
    intro dk bm tbl i secs h1 h2 h3 h4
    exact H (tbl.length - i) dk bm tbl i secs le_rfl h1 h2 h3 h4
  intro n
  induction n with
  | zero =>
    intro dk bm tbl i secs hle htt hpre hnd hbm
    exact rrAux_done ml fuel dk bm tbl i secs (by omega) htt hpre
  | succ n ihn =>
    intro dk bm tbl i secs hle htt hpre hnd hbm
    by_cases hi : i < tbl.length
    swap
    · exact rrAux_done ml fuel dk bm tbl i secs hi htt hpre
    have hdrop : tbl.drop i = tbl.get ⟨i, hi⟩ :: tbl.drop (i + 1) :=
      List.drop_eq_getElem_cons hi
    rw [hdrop] at htt
    cases htt with
    | skip _ _ _ _ _ hnotuse httR =>
      have hu : tbl[i].inUse = false := hnotuse
      rw [rrAux_eq, dif_pos hi, if_neg (by simp [hu]), if_neg (by simp [hu])]
      apply ihn dk bm tbl (i + 1) secs (by omega) httR ?hp hnd hbm
      case hp =>
        intro j hj hji
        by_cases hj2 : j = i
        · subst hj2
          exact hnotuse
        · exact hpre j hj (by omega)
    | file _ _ _ _ hsecs rsecs hin hnotd hhdr httR =>
      have hu : tbl[i].inUse = true := hin
      have hd : tbl[i].isDir = false := hnotd
      rw [rrAux_eq, dif_pos hi, if_pos (by simp [hu, hd])]
      have hrem := remove_at ml tbl i hi hpre hin
      have htbl1 : (Remove ml tbl (tbl.get ⟨i, hi⟩).name).2 =
          tbl.set i (markFree (tbl.get ⟨i, hi⟩)) := by rw [hrem]
      have hDe := Deallocate_spec hhdr bm
      have hbm2 : (Deallocate fuel dk.hdrAt bm
          (dk.hdrAt (tbl.get ⟨i, hi⟩).sector)).clear (tbl.get ⟨i, hi⟩).sector =
          clearMany bm (hsecs ++ [(tbl.get ⟨i, hi⟩).sector]) := by
        rw [hDe, ← clearMany_append]
        rfl
      rw [htbl1, hbm2]
      obtain ⟨hndr, hdisj⟩ := nodup_chop hsecs (tbl.get ⟨i, hi⟩).sector rsecs hnd
      have hkey := ihn dk (clearMany bm (hsecs ++ [(tbl.get ⟨i, hi⟩).sector]))
        (tbl.set i (markFree (tbl.get ⟨i, hi⟩))) (i + 1) rsecs
        (by simp only [List.length_set]; omega)
        (by
          rw [List.drop_set_of_lt _ _ (Nat.lt_succ_self i)]
          exact httR)
        ?hp hndr ?hb
      case hp =>
        intro j hj hji
        by_cases hj2 : j = i
        · subst hj2
          have hx : (tbl.set j (markFree (tbl.get ⟨j, hi⟩))).get ⟨j, hj⟩ =
              markFree (tbl.get ⟨j, hi⟩) := by
            simp
          rw [hx]
          rfl
        · have hj3 : j < tbl.length := by simpa using hj
          have hx : (tbl.set i (markFree (tbl.get ⟨i, hi⟩))).get ⟨j, hj⟩ =
              tbl.get ⟨j, hj3⟩ := by
            simp [List.getElem_set_ne (fun h => hj2 h.symm)]
          rw [hx]
          exact hpre j hj3 (by omega)
      case hb =>
        intro s hs
        obtain ⟨s0, slen, sset⟩ := hbm s (by simp [hs])
        refine ⟨s0, ?_, ?_⟩
        · rw [clearMany_bits_length]
          exact slen
        · rw [clearMany_testAt_notMem _ _ _ (hdisj s hs)]
          exact sset
      obtain ⟨k1, k2, k3, k4⟩ := hkey
      refine ⟨?_, ?_, k3, ?_⟩
      · rw [k1, List.map_set]
        have hgi : (tbl.map markFree).get ⟨i, by simpa using hi⟩ =
            markFree (tbl.get ⟨i, hi⟩) := by simp
        have : markFree (markFree (tbl.get ⟨i, hi⟩)) = markFree (tbl.get ⟨i, hi⟩) := rfl
        rw [this, ← hgi, set_get_self]
      · rw [k2, clearMany_append]
        congr 1
        simp
      · intro s hs
        exact k4 s (fun hm => hs (by simp [hm]))
    | dir fk _ _ _ nsecs hsecs rsecs hin hisd hnest hhdr httR =>
      have hu : tbl[i].inUse = true := hin
      have hd : tbl[i].isDir = true := hisd
      rw [rrAux_eq, dif_pos hi, if_neg (by simp [hd]), if_pos (by simp [hu, hd])]
      dsimp only
      have hnd0 : nsecs.Nodup := by
        have h1 := (List.nodup_append.mp hnd).1
        exact (List.nodup_append.mp h1).1
      obtain ⟨hndr, hdisj⟩ := nodup_chop (nsecs ++ hsecs) _ rsecs hnd
      have hnspec := ihf fk (by omega) dk bm (dk.dirAt (tbl.get ⟨i, hi⟩).sector) 0
        nsecs (by simpa using hnest) (by omega)
        hnd0 (fun s hs => hbm s (by simp [hs]))
      obtain ⟨hn1, hn2, hn3, hn4⟩ := hnspec
      set r0 := RecursiveRemoveAux ml fk dk bm (dk.dirAt (tbl.get ⟨i, hi⟩).sector) 0
        with hr0
      set dk1 := writeDir r0.2.2 (tbl.get ⟨i, hi⟩).sector r0.1 with hdk1
      have hdk1h : dk1.hdrAt = dk.hdrAt := hn3
      have hdk1d : ∀ s : Int, s ≠ (tbl.get ⟨i, hi⟩).sector → s ∉ nsecs →
          dk1.dirAt s = dk.dirAt s := by
        intro s hsne hsn
        show (writeDir r0.2.2 (tbl.get ⟨i, hi⟩).sector r0.1).dirAt s = dk.dirAt s
        unfold writeDir
        dsimp only
        rw [if_neg hsne]
        exact hn4 s hsn
      have hDe : Deallocate (fk + 1) dk1.hdrAt r0.2.1
          (dk1.hdrAt (tbl.get ⟨i, hi⟩).sector) = clearMany bm (nsecs ++ hsecs) := by
        rw [hdk1h, hn2, Deallocate_spec hhdr, clearMany_append]
      have hbm2 : (Deallocate (fk + 1) dk1.hdrAt r0.2.1
          (dk1.hdrAt (tbl.get ⟨i, hi⟩).sector)).clear (tbl.get ⟨i, hi⟩).sector =
          clearMany bm ((nsecs ++ hsecs) ++ [(tbl.get ⟨i, hi⟩).sector]) := by
        rw [hDe]
        conv_rhs => rw [← clearMany_append]
        rfl
      have hrem := remove_at ml tbl i hi hpre hin
      have htbl1 : (Remove ml tbl (tbl.get ⟨i, hi⟩).name).2 =
          tbl.set i (markFree (tbl.get ⟨i, hi⟩)) := by rw [hrem]
      rw [htbl1, hbm2]
      have hkey := ihn dk1
        (clearMany bm ((nsecs ++ hsecs) ++ [(tbl.get ⟨i, hi⟩).sector]))
        (tbl.set i (markFree (tbl.get ⟨i, hi⟩))) (i + 1) rsecs
        (by simp only [List.length_set]; omega)
        (by
          rw [List.drop_set_of_lt _ _ (Nat.lt_succ_self i)]
          apply TableTree_frame httR dk1 hdk1h
          intro s hs
          apply hdk1d s
          · intro h
            exact (hdisj s hs) (by simp [h])
          · intro hm
            exact (hdisj s hs) (by simp [hm]))
        ?hp hndr ?hb
      case hp =>
        intro j hj hji
        by_cases hj2 : j = i
        · subst hj2
          have hx : (tbl.set j (markFree (tbl.get ⟨j, hi⟩))).get ⟨j, hj⟩ =
              markFree (tbl.get ⟨j, hi⟩) := by
            simp
          rw [hx]
          rfl
        · have hj3 : j < tbl.length := by simpa using hj
          have hx : (tbl.set i (markFree (tbl.get ⟨i, hi⟩))).get ⟨j, hj⟩ =
              tbl.get ⟨j, hj3⟩ := by
            simp [List.getElem_set_ne (fun h => hj2 h.symm)]
          rw [hx]
          exact hpre j hj3 (by omega)
      case hb =>
        intro s hs
        obtain ⟨s0, slen, sset⟩ := hbm s (by simp [hs])
        refine ⟨s0, ?_, ?_⟩
        · rw [clearMany_bits_length]
          exact slen
        · rw [clearMany_testAt_notMem _ _ _ (hdisj s hs)]
          exact sset
      obtain ⟨k1, k2, k3, k4⟩ := hkey
      refine ⟨?_, ?_, ?_, ?_⟩
      · rw [k1, List.map_set]
        have hgi : (tbl.map markFree).get ⟨i, by simpa using hi⟩ =
            markFree (tbl.get ⟨i, hi⟩) := by simp
        have : markFree (markFree (tbl.get ⟨i, hi⟩)) = markFree (tbl.get ⟨i, hi⟩) := rfl
        rw [this, ← hgi, set_get_self]
      · rw [k2, clearMany_append]
        congr 1
        simp
      · rw [k3]
        exact hdk1h
      · intro s hs
        rw [k4 s (fun hm => hs (by simp [hm]))]
        apply hdk1d s
        · intro h
          exact hs (by simp [h])
        · intro hm
          exact hs (by simp [hm])

/-- C2: for a directory tree whose in-use entries reference disjoint,
consistently allocated structures — the TableTree predicate, with `secs` the
duplicate-free sequence of all sectors transitively reachable from the
table's in-use entries (file index trees and data, nested directory tables,
nested directory header sectors), each currently marked used —
RecursiveRemove frees exactly those sectors: the Clear-call trace extends by
exactly `secs` (so no sector is cleared twice), afterwards every sector of
`secs` is free while every other sector's bit is untouched, NumClear rises
by exactly `secs.length` (the value before the structures were built), and
every table entry is left marked not-in-use. -/
theorem C2_recursiveRemove (ml fuel : Nat) (dk : DiskState) (bm : Bitmap)
    (tbl : List DirEntry) (secs : List Int)
    (htt : TableTree fuel dk tbl secs)
    (hnd : secs.Nodup)
    (hbm : ∀ s ∈ secs, 0 ≤ s ∧ s.toNat < bm.bits.length ∧ bm.testAt s = true) :
    (RecursiveRemove ml fuel dk bm tbl).1 = tbl.map markFree ∧
    (∀ e ∈ (RecursiveRemove ml fuel dk bm tbl).1, e.inUse = false) ∧
    (RecursiveRemove ml fuel dk bm tbl).2.1 = clearMany bm secs ∧
    (RecursiveRemove ml fuel dk bm tbl).2.1.trace = bm.trace ++ secs ∧
    (RecursiveRemove ml fuel dk bm tbl).2.1.numClear = bm.numClear + secs.length ∧
    (∀ s ∈ secs, (RecursiveRemove ml fuel dk bm tbl).2.1.testAt s = false) ∧
    (∀ s : Int, s ∉ secs →
      (RecursiveRemove ml fuel dk bm tbl).2.1.testAt s = bm.testAt s) ∧
    (RecursiveRemove ml fuel dk bm tbl).2.2.hdrAt = dk.hdrAt := by
  have h := rrAux_spec ml fuel dk bm tbl 0 secs (by simpa using htt)
    (by intro j hj hji; omega) hnd hbm
  obtain ⟨k1, k2, k3, k4⟩ := h
  unfold RecursiveRemove
  refine ⟨k1, ?_, k2, ?_, ?_, ?_, ?_, k3⟩
  · intro e he
    rw [k1] at he
    obtain ⟨x, hx, rfl⟩ := List.mem_map.mp he
    rfl
  · rw [k2, clearMany_trace]
  · rw [k2]
    exact clearMany_numClear secs bm hnd hbm
  · intro s hs
    rw [k2]
    obtain ⟨h0, hlen, -⟩ := hbm s hs
    exact clearMany_testAt_mem secs bm s hs h0 hlen
  · intro s hs
    rw [k2]
    exact clearMany_testAt_notMem secs bm s hs

/-- C2 witness: one directory table holding one file (header at sector 5,
data sector 3); recursive removal restores NumClear by exactly the two
sectors the entry owned. -/
theorem C2_recursiveRemove_witness :
    ([(3 : Int), 5].Nodup) ∧
    (RecursiveRemove 9 1 diskW bmW [⟨true, false, ['f'], 5⟩]).2.1.numClear =
      bmW.numClear + 2 := by
  refine ⟨by decide, ?_⟩
  have h := C2_recursiveRemove 9 1 diskW bmW [⟨true, false, ['f'], 5⟩] [3, 5]
    (TableTree.file 1 diskW ⟨true, false, ['f'], 5⟩ [] [3] [] rfl rfl
      (HdrTreeF.leaf 1 (diskW.hdrAt 5) (by decide))
      (TableTree.nil 1 diskW))
    (by decide) (by decide)
  simpa using h.2.2.2.2.1

end NachosFS
